import Mathlib

/-!
Verification development for the spotify knowledge-graph tour core.

The definitions below are a shallow embedding of the two source files that
form the tour core:

* `src/frontend/lib/graph-tour.ts` — tour order selection
  (`toNodeId`, `extractLinks`, `extractTriples`, `extractNodeIds`,
  `buildAdjacency`, `rankNodesByDegree`, `buildDfsOrder`, `buildTourOrder`);
* `src/frontend/components/graph-chat-panel.tsx` — the streaming narration
  coordinator (`processTourQueue`, `tick`, `ingestTourText`,
  `enqueueTourLine`, `flushPendingTourLines`, the `handleSend` stream read
  loop, and the `tourSignal` effect).

JavaScript runtime conventions are modelled explicitly: strings used for
character-level work are `List Char`; JS `Map`/`Set` are insertion-ordered
association lists / duplicate-free lists; `Array.prototype.sort` with the
total, antisymmetric comparators used by the source is modelled with
`List.insertionSort` (the sorted permutation is unique for such a
comparator, so the choice of algorithm is immaterial); numbers are `Int`
(all arithmetic in the source stays integral and far from 2^53).
-/

namespace GraphTour

/-! ### JavaScript value model for graph descriptions

`toNodeId` receives arbitrary JS values: strings, numbers, objects (with
the fields it probes), or null/undefined.  Object fields may themselves be
strings, numbers, nested objects, or absent. -/

/-- A JS value that can sit in one of the probed object fields
(`id`, `_id`, `_key`, `name`, `label`).  `pobj` stands for any nested
object (always truthy, stringifies to "[object Object]"). -/
inductive JsPrim where
  | pnull : JsPrim
  | pstr (s : String) : JsPrim
  | pnum (n : Int) : JsPrim
  | pobj : JsPrim
deriving Repr, DecidableEq

/-- A JS value appearing as a node, link endpoint, or triple endpoint. -/
inductive JsValue where
  | vnull : JsValue
  | vstr (s : String) : JsValue
  | vnum (n : Int) : JsValue
  | vobj (idf idUnd keyUnd namef labelf : JsPrim) : JsValue
deriving Repr, DecidableEq

/-- JS truthiness of a field value. -/
def JsPrim.truthy : JsPrim → Bool
  | .pnull => false
  | .pstr s => s ≠ ""
  | .pnum n => n ≠ 0
  | .pobj => true

/-- JS `String(x)` of a field value. -/
def JsPrim.display : JsPrim → String
  | .pnull => "null"
  | .pstr s => s
  | .pnum n => toString n
  | .pobj => "[object Object]"

/-- JS `a || b` on field values. -/
def jsOr (a b : JsPrim) : JsPrim := if a.truthy then a else b

/-- JS truthiness of a top-level value. -/
def JsValue.truthy : JsValue → Bool
  | .vnull => false
  | .vstr s => s ≠ ""
  | .vnum n => n ≠ 0
  | .vobj _ _ _ _ _ => true

/-- JS `a || b` on top-level values. -/
def jsOrV (a b : JsValue) : JsValue := if a.truthy then a else b

/-- Embeds `toNodeId` from `graph-tour.ts` lines 22-26: falsy values map to
"", strings and numbers are stringified, objects take
`String(value.id || value._id || value._key || value.name || value.label || "")`. -/
def toNodeId : JsValue → String
  | .vnull => ""
  | .vstr s => s
  | .vnum n => if n = 0 then "" else toString n
  | .vobj idf idUnd keyUnd namef labelf =>
      (jsOr idf (jsOr idUnd (jsOr keyUnd (jsOr namef (jsOr labelf (.pstr "")))))).display

/-- Embeds the `LinkLike` shape: `source`/`target` for links and
`_from`/`_to` for edges (the underscored names are spelled `fromUnd`/`toUnd`). -/
structure LinkLike where
  source : JsValue
  target : JsValue
  fromUnd : JsValue
  toUnd : JsValue
deriving Repr, DecidableEq

/-- Embeds the `TripleLike` shape. -/
structure TripleLike where
  subject : JsValue
  object : JsValue
deriving Repr, DecidableEq

/-- Embeds the `GraphLike` shape; `none` models an absent or non-array
field (the source guards every access with `Array.isArray`). -/
structure GraphLike where
  nodes : Option (List JsValue)
  links : Option (List LinkLike)
  edges : Option (List LinkLike)
  triples : Option (List TripleLike)
deriving Repr, DecidableEq

/-- Embeds `extractLinks` (`graph-tour.ts` lines 28-50): links contribute
`source`/`target`, edges contribute `_from || source` / `_to || target`;
pairs with an empty endpoint are dropped. -/
def extractLinks (g : GraphLike) : List (String × String) :=
  (g.links.getD []).filterMap
    (fun l =>
      let s := toNodeId l.source
      let t := toNodeId l.target
      if s ≠ "" ∧ t ≠ "" then some (s, t) else none)
  ++ (g.edges.getD []).filterMap
    (fun e =>
      let s := toNodeId (jsOrV e.fromUnd e.source)
      let t := toNodeId (jsOrV e.toUnd e.target)
      if s ≠ "" ∧ t ≠ "" then some (s, t) else none)

/-- Embeds `extractTriples` (`graph-tour.ts` lines 52-63). -/
def extractTriples (g : GraphLike) : List (String × String) :=
  (g.triples.getD []).filterMap
    (fun tr =>
      let s := toNodeId tr.subject
      let o := toNodeId tr.object
      if s ≠ "" ∧ o ≠ "" then some (s, o) else none)

/-- First-occurrence deduplication, the semantics of
`Array.from(new Set(ids))` (JS sets preserve insertion order). -/
def dedupFirstAux (seen : List String) : List String → List String
  | [] => []
  | a :: l => if seen.contains a then dedupFirstAux seen l
              else a :: dedupFirstAux (a :: seen) l

/-- Embeds `extractNodeIds` (`graph-tour.ts` lines 65-69). -/
def extractNodeIds (g : GraphLike) : List String :=
  dedupFirstAux [] (((g.nodes.getD []).map toNodeId).filter (· ≠ ""))

/-! ### The adjacency map

A JS `Map<string, Set<string>>` is modelled as an insertion-ordered
association list whose values are duplicate-free insertion-ordered lists. -/

/-- The adjacency representation. -/
abbrev Adj := List (String × List String)

/-- JS `map.has k`. -/
def mapHas (m : Adj) (k : String) : Bool := m.any (fun p => p.1 = k)

/-- JS `map.get k` (the neighbor set, `?.`-defaulted to empty). -/
def adjGet (m : Adj) (k : String) : List String :=
  ((m.find? (fun p => p.1 = k)).map Prod.snd).getD []

/-- JS `map.set k v`: replace in place if present, else append. -/
def mapSet (m : Adj) (k : String) (v : List String) : Adj :=
  if mapHas m k then m.map (fun p => if p.1 = k then (k, v) else p)
  else m ++ [(k, v)]

/-- The `if (!adjacency.has(k)) adjacency.set(k, new Set())` idiom. -/
def ensureKey (m : Adj) (k : String) : Adj :=
  if mapHas m k then m else m ++ [(k, [])]

/-- JS `map.get(k)?.add(v)`: a no-op when the key is absent; `Set.add`
keeps the first copy only. -/
def setAdd (m : Adj) (k v : String) : Adj :=
  m.map (fun p => if p.1 = k then (p.1, if p.2.contains v then p.2 else p.2 ++ [v]) else p)

/-- One iteration of the edge-merging loops of `buildAdjacency`
(`graph-tour.ts` lines 78-90, the same block for links and triples):
ensure both endpoints have entries, then add each endpoint to the other's
neighbor set. -/
def linkStep (m : Adj) (pr : String × String) : Adj :=
  setAdd (setAdd (ensureKey (ensureKey m pr.1) pr.2) pr.1 pr.2) pr.2 pr.1

/-- Embeds `buildAdjacency` (`graph-tour.ts` lines 71-93). -/
def buildAdjacency (g : GraphLike) : Adj :=
  let adj : Adj := (extractNodeIds g).foldl (fun m nodeId => mapSet m nodeId []) []
  let adj := (extractLinks g).foldl linkStep adj
  (extractTriples g).foldl linkStep adj

/-- Neighbor-set size, `adjacency.get(x)?.size ?? 0`. -/
def degreeOf (m : Adj) (x : String) : Nat := (adjGet m x).length

/-- Lexicographic code-point comparison of id strings, modelling the
`localeCompare` tie-break (all ids in this domain are ASCII, where the
default collation agrees with code-point order): `a` sorts no later
than `b`. -/
def charListLe : List Char → List Char → Bool
  | a :: as, b :: bs =>
    if a.toNat < b.toNat then true
    else if b.toNat < a.toNat then false
    else charListLe as bs
  | [], _ => true
  | _, _ => false

/-- The comparator used both by `rankNodesByDegree` and by the DFS
neighbor sort: degree descending, then id ascending.  As a `≤`-style
relation: `a` sorts no later than `b`. -/
def rankRel (m : Adj) (a b : String) : Prop :=
  degreeOf m b < degreeOf m a ∨
    (degreeOf m a = degreeOf m b ∧ charListLe a.data b.data = true)

instance (m : Adj) : DecidableRel (rankRel m) := fun a b => by
  unfold rankRel; infer_instance

/-- Embeds `rankNodesByDegree` (`graph-tour.ts` lines 95-105).  The
comparator is total and antisymmetric on the duplicate-free key list, so
the sorted permutation is unique and `insertionSort` matches JS `sort`. -/
def rankNodesByDegree (m : Adj) : List String :=
  (m.map Prod.fst).insertionSort (rankRel m)

/-- JS `arr.slice(0, count)` for a possibly negative `count`:
a negative end counts from the end of the array, clamped at zero. -/
def jsSlice0 (l : List String) (count : Int) : List String :=
  if 0 ≤ count then l.take count.toNat
  else l.take ((l.length : Int) + count).toNat

/-- The neighbor list explored from `x`: `Array.from(adjacency.get(x) || [])`
filtered to the eligible set and sorted by the rank comparator
(`graph-tour.ts` lines 119-125). -/
def sortedEligibleNbrs (adj : Adj) (selected : List String) (x : String) : List String :=
  ((adjGet adj x).filter (fun n => selected.contains n)).insertionSort (rankRel adj)

mutual
/-- Embeds the recursive `dfs` closure of `buildDfsOrder` (`graph-tour.ts`
lines 116-131).  `order` doubles as the `visited` set (the source pushes to
both in lockstep).  The fuel argument bounds the depth of the call tree;
it decreases on every call so the recursion is structural.  Along any call
path the visited nodes are distinct eligible nodes and each visit
contributes at most one level per neighbor-list entry, so the call depth
is below `selected.length + totalDegree + 2`; `buildDfsOrder` passes
exactly that, hence the fuel-exhaustion branch is unreachable there. -/
def dfsVisit (adj : Adj) (selected : List String) :
    Nat → String → List String → List String
  | 0, _, order => order
  | fuel + 1, x, order =>
      dfsNbrs adj selected fuel (sortedEligibleNbrs adj selected x) (order ++ [x])

/-- The `for (const neighbor of neighbors)` loop inside `dfs`: recurse into
each not-yet-visited neighbor in sorted order. -/
def dfsNbrs (adj : Adj) (selected : List String) :
    Nat → List String → List String → List String
  | 0, _, order => order
  | _, [], order => order
  | fuel + 1, n :: ns, order =>
      dfsNbrs adj selected fuel ns
        (if order.contains n then order else dfsVisit adj selected fuel n order)
end

/-- An upper bound on the `dfs` call-tree depth, used as fuel: the
eligible-set size plus the total number of adjacency entries, plus slack. -/
def dfsFuel (adj : Adj) (selected : List String) : Nat :=
  selected.length + (adj.map (fun p => p.2.length)).sum + 2

/-- The outer loop of `buildDfsOrder` (`graph-tour.ts` lines 133-136):
start a fresh walk from every eligible, not-yet-visited ranked node. -/
def dfsOuter (adj : Adj) (selected : List String) (fuel : Nat) :
    List String → List String → List String
  | [], order => order
  | r :: rs, order =>
      if selected.contains r ∧ ¬ order.contains r then
        dfsOuter adj selected fuel rs (dfsVisit adj selected fuel r order)
      else
        dfsOuter adj selected fuel rs order

/-- Embeds `buildDfsOrder` (`graph-tour.ts` lines 107-139). -/
def buildDfsOrder (adj : Adj) (rankedNodes : List String) (count : Int) : List String :=
  let selected := jsSlice0 rankedNodes count
  dfsOuter adj selected (dfsFuel adj selected) rankedNodes []

/-- Embeds `buildTourOrder` (`graph-tour.ts` lines 141-146). -/
def buildTourOrder (g : GraphLike) (count : Int) : List String :=
  let adjacency := buildAdjacency g
  if adjacency.length = 0 then []
  else buildDfsOrder adjacency (rankNodesByDegree adjacency) count

/-- The identity-extraction rule as the spec words it, stated
independently of `toNodeId` for the refinement theorem: take the first of
the probed fields that resolves (is truthy), stringified, else the empty
string. -/
def specFieldExtract (fields : List JsPrim) : String :=
  match fields.find? JsPrim.truthy with
  | some v => v.display
  | none => ""

/-- A two-node, edge-free graph description, used as a concrete input. -/
def exGraphTwoNodes : GraphLike :=
  { nodes := some [.vstr "A", .vstr "B"], links := none, edges := none, triples := none }

/-- The worked example of spec section 8: nodes A..E, links A-B, A-C,
A-D, B-C, D-E. -/
def exGraphWorked : GraphLike :=
  { nodes := some [.vstr "A", .vstr "B", .vstr "C", .vstr "D", .vstr "E"],
    links := some [⟨.vstr "A", .vstr "B", .vnull, .vnull⟩, ⟨.vstr "A", .vstr "C", .vnull, .vnull⟩,
      ⟨.vstr "A", .vstr "D", .vnull, .vnull⟩, ⟨.vstr "B", .vstr "C", .vnull, .vnull⟩,
      ⟨.vstr "D", .vstr "E", .vnull, .vnull⟩],
    edges := none, triples := none }

/-- A graph whose only link is the self-loop A-A. -/
def exGraphSelfLoop : GraphLike :=
  { nodes := none, links := some [⟨.vstr "A", .vstr "A", .vnull, .vnull⟩],
    edges := none, triples := none }

end GraphTour

namespace JsStr

/-- The whitespace characters relevant to JS `trim` and `\s` for the
payloads at hand (space, newline, tab, carriage return). -/
def isJsWs (c : Char) : Bool := c = ' ' ∨ c = '\n' ∨ c = '\t' ∨ c = '\r'

/-- JS `String.prototype.trim` on a character list. -/
def trimChars (l : List Char) : List Char :=
  ((l.dropWhile isJsWs).reverse.dropWhile isJsWs).reverse

/-- JS `str.split("\n")` on a character list: `splitOnNl [] = [[]]`, and a
trailing newline yields a trailing empty segment, exactly as in JS. -/
def splitOnNl : List Char → List (List Char)
  | [] => [[]]
  | c :: cs =>
    if c = '\n' then [] :: splitOnNl cs
    else
      match splitOnNl cs with
      | [] => [[c]]
      | p :: ps => (c :: p) :: ps

/-- JS `str.split("\n\n")` on a character list: left-to-right,
non-overlapping occurrences of the two-character separator. -/
def splitOnTwoNl : List Char → List (List Char)
  | [] => [[]]
  | '\n' :: '\n' :: cs => [] :: splitOnTwoNl cs
  | c :: cs =>
    match splitOnTwoNl cs with
    | [] => [[c]]
    | p :: ps => (c :: p) :: ps

end JsStr

namespace TourPanel

open JsStr

/-! ### The narration typing coordinator

State machine embedding of the tour refs and closures of
`graph-chat-panel.tsx`: `tourTextBufferRef`, `tourLinesRef`,
`pendingTourStepsRef`, `tourTypingRef`, `tourResponseDoneRef`, the
`processTourQueue`/`tick` pair, `ingestTourText`, `enqueueTourLine`, and
the `tourSignal` effect.  Execution is single-threaded and event-driven;
each external event (stream delta, tour signal, timer firing) runs one
handler to completion, which we model as a step function on this state. -/

/-- One in-flight `tick` closure: the line being revealed, the index of
the next character to append, and the per-character delay it captured.
The `reveals` field of the state lists every live closure chain (one entry
per scheduled per-character timeout); the source's `typing` guard is what
keeps this list from ever holding more than one entry. -/
structure RevealState where
  line : List Char
  index : Nat
  perChar : Nat
deriving Repr, DecidableEq

/-- The coordinator state: the refs of `graph-chat-panel.tsx` plus the
content of the assistant message currently receiving appended characters
(`appendAssistantDelta` target) and the `isStreaming` UI flag. -/
structure TourState where
  textBuffer : List Char
  lines : List (List Char)
  pendingSteps : Int
  typing : Bool
  reveals : List RevealState
  content : List Char
  responseDone : Bool
  streamingUI : Bool
deriving Repr, DecidableEq

/-- The state before any tour activity. -/
def initTourState : TourState :=
  { textBuffer := [], lines := [], pendingSteps := 0, typing := false,
    reveals := [], content := [], responseDone := false, streamingUI := false }

/-- TOUR_END_BUFFER_MS (`graph-chat-panel.tsx` line 53). -/
def tourEndBufferMs : Int := 600

/-- TOUR_CHAR_MIN_MS (line 54). -/
def tourCharMinMs : Nat := 4

/-- TOUR_CHAR_MAX_MS (line 55). -/
def tourCharMaxMs : Nat := 18

/-- The `availableMs` computation of `processTourQueue` (line 168):
`Math.max(600, tourStepMs - TOUR_END_BUFFER_MS)`; always at least 600. -/
def availableMs (budget : Int) : Nat := (max 600 (budget - tourEndBufferMs)).toNat

/-- The `perChar` computation of `processTourQueue` (lines 169-172):
`Math.min(MAX, Math.max(MIN, Math.floor(availableMs / Math.max(len, 1))))`. -/
def perCharMs (budget : Int) (len : Nat) : Nat :=
  min tourCharMaxMs (max tourCharMinMs (availableMs budget / max len 1))

/-- The pacing rule as the spec words it: `clamp(floor(available /
max(length,1)), charMinMs, charMaxMs)` with `clamp v lo hi = max lo (min v
hi)` and `available = max(minFloor, budgetMs − endBufferMs)`, `minFloor =
600`.  Stated independently of `perCharMs` for the refinement theorem. -/
def specClamp (v lo hi : Nat) : Nat := max lo (min v hi)

/-- The spec-side pacing formula (spec section 4.3). -/
def specPerCharMs (budget : Int) (len : Nat) : Nat :=
  specClamp ((max 600 (budget - 600)).toNat / max len 1) tourCharMinMs tourCharMaxMs

/-- Embeds `processTourQueue` (`graph-chat-panel.tsx` lines 160-193)
together with the first, synchronous invocation of its `tick` closure:
when a line is dequeued, `typing` is set, the closure appends the first
character immediately (the line is non-empty here thanks to the
`if (!nextLine) return` guard) and schedules the next tick, which we
record by appending a `RevealState` with `index = 1`. -/
def processTourQueue (budget : Int) (s : TourState) : TourState :=
  if s.typing then s
  else if s.pendingSteps ≤ 0 then s
  else
    match s.lines with
    | [] => s
    | nextLine :: rest =>
      if nextLine = [] then { s with lines := rest }
      else
        { s with lines := rest, typing := true,
                 content := s.content ++ [nextLine.getD 0 ' '],
                 reveals := s.reveals ++ [⟨nextLine, 1, perCharMs budget nextLine.length⟩] }

/-- Embeds one timer-driven invocation of `tick` (lines 177-190) on the
live closure chain: bail out if the typing flag was cleared (no new
timeout, so the chain dies); append the next character and reschedule
while characters remain; otherwise append the closing newline, clear
`typing`, decrement the pending-step count, and re-attempt dequeue. -/
def tickStep (budget : Int) (s : TourState) : TourState :=
  match s.reveals with
  | [] => s
  | r :: rest =>
    if ¬ s.typing then { s with reveals := rest }
    else if r.index < r.line.length then
      { s with content := s.content ++ [r.line.getD r.index ' '],
               reveals := ⟨r.line, r.index + 1, r.perChar⟩ :: rest }
    else
      processTourQueue budget
        { s with content := s.content ++ ['\n'], typing := false,
                 pendingSteps := s.pendingSteps - 1, reveals := rest }

/-- Embeds `ingestTourText` (lines 204-213): append the delta to the text
buffer, split on newlines, keep the unterminated remainder buffered, trim
the complete lines, drop blanks, enqueue the survivors, and re-attempt
dequeue when anything was enqueued. -/
def ingestTourText (budget : Int) (delta : List Char) (s : TourState) : TourState :=
  let parts := splitOnNl (s.textBuffer ++ delta)
  let newBuf := parts.getLastD []
  let cleaned := (parts.dropLast.map trimChars).filter (fun l => l ≠ [])
  if cleaned = [] then { s with textBuffer := newBuf }
  else processTourQueue budget { s with textBuffer := newBuf, lines := s.lines ++ cleaned }

/-- Embeds `enqueueTourLine` (lines 199-202): a step signal bumps the
pending count and attempts a dequeue. -/
def enqueueTourLine (budget : Int) (s : TourState) : TourState :=
  processTourQueue budget { s with pendingSteps := s.pendingSteps + 1 }

/-- Embeds the tour-reset block of `handleSend` (lines 231-238) plus the
surrounding `setError(null)` / `setIsStreaming(true)` and the creation of
a fresh empty assistant message: all refs cleared, every outstanding
timeout cancelled (`reveals := []`), and appends now target the new empty
message (`content := []`). -/
def startTour (s : TourState) : TourState :=
  { s with textBuffer := [], lines := [], pendingSteps := 0, responseDone := false,
           reveals := [], typing := false, content := [], streamingUI := true }

/-- The three tour signal kinds. -/
inductive SigKind where
  | step : SigKind
  | done : SigKind
  | stop : SigKind
deriving Repr, DecidableEq

/-- Embeds the `useEffect [tourSignal]` handler (lines 322-337): a step
signal enqueues; a done signal ends the UI streaming state only once the
response has drained; a stop signal merely ends the UI streaming state. -/
def applySignal (budget : Int) (k : SigKind) (s : TourState) : TourState :=
  match k with
  | .step => enqueueTourLine budget s
  | .done => if s.responseDone then { s with streamingUI := false } else s
  | .stop => { s with streamingUI := false }

/-- The external events that can reach the coordinator. -/
inductive TourEvent where
  | edelta (d : List Char) : TourEvent
  | esignal (k : SigKind) : TourEvent
  | etimer : TourEvent
  | estart : TourEvent
  | estreamDone : TourEvent
deriving Repr, DecidableEq

/-- One event dispatch.  `estreamDone` is the tour branch of the
`finally` block of `handleSend` (lines 312-319): mark the response done
and call `flushPendingTourLines`, which is just `processTourQueue`. -/
def stepEv (budget : Int) (s : TourState) : TourEvent → TourState
  | .edelta d => ingestTourText budget d s
  | .esignal k => applySignal budget k s
  | .etimer => tickStep budget s
  | .estart => startTour s
  | .estreamDone => processTourQueue budget { s with responseDone := true }

/-- A run of the coordinator over an event list. -/
def runEvents (budget : Int) (s : TourState) (evs : List TourEvent) : TourState :=
  evs.foldl (stepEv budget) s

/-- `n` consecutive timer firings. -/
def runTimers (budget : Int) : Nat → TourState → TourState
  | 0, s => s
  | n + 1, s => runTimers budget n (tickStep budget s)

/-- A well-formed narration line as produced by `ingestTourText`:
non-empty, already trimmed, and newline-free. -/
def wfLine (l : List Char) : Prop := l ≠ [] ∧ trimChars l = l ∧ '\n' ∉ l

instance : DecidablePred wfLine := fun l => by
  unfold wfLine
  infer_instance

/-- The single-reveal invariant: the typing flag is set exactly when one
tick-closure chain is live, and there is never more than one. -/
def RevealInv (s : TourState) : Prop :=
  (s.typing = true ∧ s.reveals.length = 1) ∨ (s.typing = false ∧ s.reveals = [])

/-- The lines joined back with the newline each reveal appends. -/
def joinNl (ls : List (List Char)) : List Char := (ls.map (fun l => l ++ ['\n'])).flatten

/-- Total character count of a batch of lines, which is exactly the
number of timer firings needed to reveal them all. -/
def totalChars (ls : List (List Char)) : Nat := (ls.map List.length).sum

end TourPanel

namespace StreamReader

open JsStr TourPanel

/-! ### The stream read loop

Embedding of the server-sent-event consumption in `handleSend`
(`graph-chat-panel.tsx` lines 266-309) in tour mode.  Chunks are modelled
as decoded text (the `TextDecoder` byte carry only matters when a chunk
boundary splits a UTF-8 code point, which is below the level of this
model).  `JSON.parse` is modelled by a small parser covering the event
payload grammar actually used: one flat object with string / boolean /
integer / null fields; an input outside that fragment parses to `none`,
which the read loop drops exactly as the source's `try/catch` does. -/

/-- A parsed JSON field value. -/
inductive JsonVal where
  | jnull : JsonVal
  | jbool (b : Bool) : JsonVal
  | jnum (n : Int) : JsonVal
  | jstr (s : List Char) : JsonVal
deriving Repr, DecidableEq

/-- JS truthiness of a parsed field. -/
def JsonVal.truthy : JsonVal → Bool
  | .jnull => false
  | .jbool b => b
  | .jnum n => n ≠ 0
  | .jstr s => s ≠ []

/-- The characters a field contributes when used as a string. -/
def JsonVal.displayChars : JsonVal → List Char
  | .jnull => "null".data
  | .jbool b => if b then "true".data else "false".data
  | .jnum n => (toString n).data
  | .jstr s => s

/-- The opening brace character, `"\x7b"`. -/
def lbrace : Char := Char.ofNat 123

/-- The closing brace character, `"\x7d"`. -/
def rbrace : Char := Char.ofNat 125

/-- Skip JSON whitespace. -/
def skipWs (l : List Char) : List Char := l.dropWhile isJsWs

/-- JSON string escape sequences (`\uXXXX` is outside the modelled
fragment and fails the parse). -/
def unescapeChar (e : Char) : Option Char :=
  if e = 'n' then some '\n'
  else if e = 't' then some '\t'
  else if e = 'r' then some '\r'
  else if e = '"' then some '"'
  else if e = '\\' then some '\\'
  else if e = '/' then some '/'
  else if e = 'b' then some (Char.ofNat 8)
  else if e = 'f' then some (Char.ofNat 12)
  else none

/-- Parse a JSON string body after its opening quote; literal control
characters are rejected as in real JSON. -/
def parseJsonStr : List Char → Option (List Char × List Char)
  | [] => none
  | c :: rest =>
    if c = '"' then some ([], rest)
    else if c = '\\' then
      match rest with
      | [] => none
      | e :: rest2 =>
        match unescapeChar e, parseJsonStr rest2 with
        | some u, some (s, r) => some (u :: s, r)
        | _, _ => none
    else if c.toNat < 32 then none
    else
      match parseJsonStr rest with
      | some (s, r) => some (c :: s, r)
      | none => none

/-- Longest digit prefix and the remainder. -/
def parseDigits : List Char → (List Char × List Char)
  | [] => ([], [])
  | c :: rest =>
    if c.isDigit then
      let (d, r) := parseDigits rest
      (c :: d, r)
    else ([], c :: rest)

/-- Numeric value of a digit list. -/
def natFromDigits (ds : List Char) : Nat :=
  ds.foldl (fun a c => a * 10 + (c.toNat - 48)) 0

/-- Parse one JSON value of the modelled fragment. -/
def parseValue : List Char → Option (JsonVal × List Char)
  | [] => none
  | c :: rest =>
    if c = '"' then (parseJsonStr rest).map (fun pr => (.jstr pr.1, pr.2))
    else if c = 't' then
      match rest with
      | 'r' :: 'u' :: 'e' :: r => some (.jbool true, r)
      | _ => none
    else if c = 'f' then
      match rest with
      | 'a' :: 'l' :: 's' :: 'e' :: r => some (.jbool false, r)
      | _ => none
    else if c = 'n' then
      match rest with
      | 'u' :: 'l' :: 'l' :: r => some (.jnull, r)
      | _ => none
    else if c = '-' then
      match parseDigits rest with
      | ([], _) => none
      | (ds, r) => some (.jnum (-(natFromDigits ds : Int)), r)
    else if c.isDigit then
      match parseDigits (c :: rest) with
      | ([], _) => none
      | (ds, r) => some (.jnum (natFromDigits ds), r)
    else none

/-- Parse the field list after an opening brace (fueled by input length). -/
def parsePairs : Nat → List Char → Option (List (String × JsonVal) × List Char)
  | 0, _ => none
  | fuel + 1, input =>
    match skipWs input with
    | [] => none
    | c :: rest =>
      if c = rbrace then some ([], rest)
      else if c = '"' then
        match parseJsonStr rest with
        | none => none
        | some (key, r1) =>
          match skipWs r1 with
          | ':' :: r2 =>
            (match parseValue (skipWs r2) with
             | none => none
             | some (v, r3) =>
               match skipWs r3 with
               | ',' :: r4 =>
                 match parsePairs fuel r4 with
                 | some (ps, r5) => some ((String.mk key, v) :: ps, r5)
                 | none => none
               | c2 :: r4 =>
                 if c2 = rbrace then some ([(String.mk key, v)], r4) else none
               | [] => none)
          | _ => none
      else none

/-- Models `JSON.parse` on an event payload, restricted to one flat
object.  A top-level non-object (e.g. `true`) is mapped to `none`: the
source would parse it but find no `delta`/`done`/`error` fields on it, so
the observable effect — the event is ignored — is identical. -/
def jsonParse (payload : List Char) : Option (List (String × JsonVal)) :=
  match skipWs payload with
  | [] => none
  | c :: rest =>
    if c = lbrace then
      match parsePairs (rest.length + 1) rest with
      | some (ps, r) => if skipWs r = [] then some ps else none
      | none => none
    else none

/-- Field lookup on a parsed object; JSON duplicate keys resolve to the
last occurrence, as in `JSON.parse`. -/
def objGet (fields : List (String × JsonVal)) (k : String) : Option JsonVal :=
  (fields.reverse.find? (fun p => p.1 = k)).map Prod.snd

/-- The `trimmed.startsWith("data:")` test. -/
def startsWithData : List Char → Bool
  | 'd' :: 'a' :: 't' :: 'a' :: ':' :: _ => true
  | _ => false

/-- The `trimmed.replace(/^data:\s*/, "")` step, applied to a string that
starts with `data:`: drop the five marker characters and the whitespace
the `\s*` consumes. -/
def dropDataTag (l : List Char) : List Char := (l.drop 5).dropWhile isJsWs

/-- The read-loop state: the event-frame carry buffer, the
`doneStreaming` flag, the component `error` state, and the coordinator
state fed by `ingestTourText`. -/
structure StreamState where
  sseBuffer : List Char
  doneStreaming : Bool
  errorMsg : Option String
  tour : TourState
deriving Repr, DecidableEq

/-- The state at the top of the read loop of a fresh tour request. -/
def initStreamState : StreamState :=
  { sseBuffer := [], doneStreaming := false, errorMsg := none, tour := initTourState }

/-- Embeds the body of the `for (const part of parts)` loop (lines
279-307) for one part, in tour mode: require the `data:` prefix, strip
it, parse the JSON, surface `error`, ingest `delta`, and record `done`. -/
def processEventPart (budget : Int) (st : StreamState) (part : List Char) : StreamState :=
  let trimmed := trimChars part
  if ¬ startsWithData trimmed then st
  else
    let payload := dropDataTag trimmed
    if payload = [] then st
    else
      match jsonParse payload with
      | none => st
      | some fields =>
        let st1 :=
          match objGet fields "error" with
          | some v => if v.truthy then { st with errorMsg := some (String.mk v.displayChars) } else st
          | none => st
        let st2 :=
          match objGet fields "delta" with
          | some v =>
            if v.truthy then { st1 with tour := ingestTourText budget v.displayChars st1.tour }
            else st1
          | none => st1
        match objGet fields "done" with
        | some v => if v.truthy then { st2 with doneStreaming := true } else st2
        | none => st2

/-- The parts loop with its `break` on `done`. -/
def processParts (budget : Int) : StreamState → List (List Char) → StreamState
  | st, [] => st
  | st, p :: ps =>
    let st1 := processEventPart budget st p
    if st1.doneStreaming then st1 else processParts budget st1 ps

/-- One iteration of the `while (!doneStreaming)` read loop for one
decoded chunk (lines 271-309): append to the carry buffer, split on the
blank-line event separator, retain the last (possibly incomplete)
segment, and process the complete events. -/
def processChunk (budget : Int) (st : StreamState) (chunk : List Char) : StreamState :=
  if st.doneStreaming then st
  else
    let parts := splitOnTwoNl (st.sseBuffer ++ chunk)
    processParts budget { st with sseBuffer := parts.getLastD [] } parts.dropLast

/-- The whole read loop over a chunk sequence. -/
def runChunks (budget : Int) (st : StreamState) (chunks : List (List Char)) : StreamState :=
  chunks.foldl (processChunk budget) st

/-- Embeds the tour branch of the `finally` block (lines 312-319): set
`tourResponseDoneRef` and call `flushPendingTourLines`, which only
re-attempts a dequeue (`processTourQueue`). -/
def streamFinally (budget : Int) (st : StreamState) : StreamState :=
  { st with tour := processTourQueue budget { st.tour with responseDone := true } }

/-- A full tour-mode stream consumption from the fresh request state. -/
def runStream (budget : Int) (chunks : List (List Char)) : StreamState :=
  streamFinally budget (runChunks budget initStreamState chunks)

end StreamReader


namespace GraphTour

theorem mapHas_iff (m : Adj) (k : String) : mapHas m k = true ↔ k ∈ m.map Prod.fst := by
  unfold mapHas
  rw [List.any_eq_true]
  constructor
  · rintro ⟨p, hp, hpe⟩
    simp only [decide_eq_true_eq] at hpe
    exact hpe ▸ List.mem_map_of_mem Prod.fst hp
  · intro hk
    rcases List.mem_map.mp hk with ⟨p, hp, he⟩
    exact ⟨p, hp, by simp [he]⟩

theorem mapSet_keys (m : Adj) (k : String) (v : List String) :
    (mapSet m k v).map Prod.fst =
      if mapHas m k then m.map Prod.fst else m.map Prod.fst ++ [k] := by
  unfold mapSet
  split
  · rw [List.map_map]
    apply List.map_congr_left
    intro p _
    by_cases h : p.1 = k <;> simp [h]
  · simp

theorem ensureKey_keys (m : Adj) (k : String) :
    (ensureKey m k).map Prod.fst =
      if mapHas m k then m.map Prod.fst else m.map Prod.fst ++ [k] := by
  unfold ensureKey
  split <;> simp

theorem setAdd_keys (m : Adj) (k v : String) :
    (setAdd m k v).map Prod.fst = m.map Prod.fst := by
  unfold setAdd
  rw [List.map_map]
  apply List.map_congr_left
  intro p _
  by_cases h : p.1 = k <;> simp [h]

theorem mapSet_nodupKeys (m : Adj) (k : String) (v : List String)
    (h : (m.map Prod.fst).Nodup) : ((mapSet m k v).map Prod.fst).Nodup := by
  rw [mapSet_keys]
  split
  · exact h
  · rename_i hk
    rw [List.nodup_append]
    refine ⟨h, List.nodup_singleton _, ?_⟩
    intro a ha hb
    simp only [List.mem_singleton] at hb
    exact hk ((mapHas_iff m k).mpr (hb ▸ ha))

theorem ensureKey_nodupKeys (m : Adj) (k : String)
    (h : (m.map Prod.fst).Nodup) : ((ensureKey m k).map Prod.fst).Nodup := by
  rw [ensureKey_keys]
  split
  · exact h
  · rename_i hk
    rw [List.nodup_append]
    refine ⟨h, List.nodup_singleton _, ?_⟩
    intro a ha hb
    simp only [List.mem_singleton] at hb
    exact hk ((mapHas_iff m k).mpr (hb ▸ ha))

theorem linkStep_nodupKeys (m : Adj) (pr : String × String)
    (h : (m.map Prod.fst).Nodup) : ((linkStep m pr).map Prod.fst).Nodup := by
  unfold linkStep
  rw [setAdd_keys, setAdd_keys]
  exact ensureKey_nodupKeys _ _ (ensureKey_nodupKeys _ _ h)

theorem foldl_linkStep_nodupKeys (l : List (String × String)) (m : Adj)
    (h : (m.map Prod.fst).Nodup) : ((l.foldl linkStep m).map Prod.fst).Nodup := by
  induction l generalizing m with
  | nil => exact h
  | cons hd tl ih => exact ih _ (linkStep_nodupKeys m hd h)

theorem buildAdjacency_nodupKeys (g : GraphLike) :
    ((buildAdjacency g).map Prod.fst).Nodup := by
  unfold buildAdjacency
  apply foldl_linkStep_nodupKeys
  apply foldl_linkStep_nodupKeys
  generalize extractNodeIds g = ids
  have : ∀ (m : Adj), (m.map Prod.fst).Nodup →
      ((ids.foldl (fun m nodeId => mapSet m nodeId []) m).map Prod.fst).Nodup := by
    induction ids with
    | nil => intro m h; exact h
    | cons hd tl ih => intro m h; exact ih _ (mapSet_nodupKeys m hd [] h)
  exact this [] (by simp)

end GraphTour

namespace GraphTour

theorem adjGet_eq (m : Adj) (a : String) :
    adjGet m a = ((m.find? (fun p => p.1 = a)).map Prod.snd).getD [] := rfl

theorem adjGet_vals_nodup (m : Adj) (hv : ∀ p ∈ m, p.2.Nodup) (a : String) :
    (adjGet m a).Nodup := by
  unfold adjGet
  cases hf : m.find? (fun p => p.1 = a) with
  | none => simp
  | some p => simpa using hv p (List.mem_of_find?_eq_some hf)

theorem mapSet_vals (m : Adj) (k : String) (v : List String)
    (hv : ∀ p ∈ m, p.2.Nodup) (hvn : v.Nodup) :
    ∀ p ∈ mapSet m k v, p.2.Nodup := by
  unfold mapSet
  split
  · intro p hp
    rcases List.mem_map.mp hp with ⟨q, hq, he⟩
    subst he
    by_cases h : q.1 = k
    · simpa [h] using hvn
    · simpa [h] using hv q hq
  · intro p hp
    rcases List.mem_append.mp hp with h | h
    · exact hv p h
    · simp only [List.mem_singleton] at h
      subst h
      simpa using hvn

theorem ensureKey_vals (m : Adj) (k : String)
    (hv : ∀ p ∈ m, p.2.Nodup) :
    ∀ p ∈ ensureKey m k, p.2.Nodup := by
  unfold ensureKey
  split
  · exact hv
  · intro p hp
    rcases List.mem_append.mp hp with h | h
    · exact hv p h
    · simp only [List.mem_singleton] at h
      subst h
      simp

theorem setAdd_vals (m : Adj) (k v : String)
    (hv : ∀ p ∈ m, p.2.Nodup) :
    ∀ p ∈ setAdd m k v, p.2.Nodup := by
  unfold setAdd
  intro p hp
  rcases List.mem_map.mp hp with ⟨q, hq, he⟩
  subst he
  by_cases h : q.1 = k
  · simp only [h, if_true]
    by_cases hc : v ∈ q.2
    · rw [if_pos (by simpa using hc)]
      exact hv q hq
    · rw [if_neg (by simpa using hc)]
      simp only [List.nodup_append, List.nodup_singleton]
      refine ⟨hv q hq, trivial, ?_⟩
      intro b hb hbv
      simp only [List.mem_singleton] at hbv
      subst hbv
      exact hc hb
  · simpa [h] using hv q hq

theorem linkStep_vals (m : Adj) (pr : String × String)
    (hv : ∀ p ∈ m, p.2.Nodup) :
    ∀ p ∈ linkStep m pr, p.2.Nodup :=
  setAdd_vals _ _ _ (setAdd_vals _ _ _ (ensureKey_vals _ _ (ensureKey_vals _ _ hv)))

theorem foldl_linkStep_vals (l : List (String × String)) (m : Adj)
    (hv : ∀ p ∈ m, p.2.Nodup) :
    ∀ p ∈ l.foldl linkStep m, p.2.Nodup := by
  induction l generalizing m with
  | nil => exact hv
  | cons hd tl ih => exact ih _ (linkStep_vals m hd hv)

theorem buildAdjacency_vals (g : GraphLike) :
    ∀ p ∈ buildAdjacency g, p.2.Nodup := by
  unfold buildAdjacency
  apply foldl_linkStep_vals
  apply foldl_linkStep_vals
  generalize extractNodeIds g = ids
  have : ∀ (m : Adj), (∀ p ∈ m, p.2.Nodup) →
      ∀ p ∈ ids.foldl (fun m nodeId => mapSet m nodeId []) m, p.2.Nodup := by
    induction ids with
    | nil => intro m h; exact h
    | cons hd tl ih => intro m h; exact ih _ (mapSet_vals m hd [] h (by simp))
  exact this [] (by simp)

end GraphTour

namespace GraphTour

theorem adjGet_mem_find (m : Adj) (a x : String) (hx : x ∈ adjGet m a) :
    ∃ p, m.find? (fun p => p.1 = a) = some p ∧ x ∈ p.2 ∧ p.1 = a := by
  unfold adjGet at hx
  cases hf : m.find? (fun p => p.1 = a) with
  | none => rw [hf] at hx; simp at hx
  | some p =>
    rw [hf] at hx
    simp only [Option.map_some', Option.getD_some] at hx
    exact ⟨p, rfl, hx, by simpa using List.find?_some hf⟩

theorem adjGet_mono_ensureKey (m : Adj) (k a x : String)
    (hx : x ∈ adjGet m a) : x ∈ adjGet (ensureKey m k) a := by
  unfold ensureKey
  split
  · exact hx
  · rcases adjGet_mem_find m a x hx with ⟨p, hf, hxp, _⟩
    unfold adjGet
    rw [List.find?_append, hf]
    simpa using hxp

theorem adjGet_mono_setAdd (m : Adj) (k v a x : String)
    (hx : x ∈ adjGet m a) : x ∈ adjGet (setAdd m k v) a := by
  rcases adjGet_mem_find m a x hx with ⟨p, hf, hxp, hpa⟩
  unfold adjGet setAdd
  rw [List.find?_map]
  have hcomp : ((fun p => decide (p.1 = a)) ∘
      fun p => if p.1 = k then (p.1, if p.2.contains v then p.2 else p.2 ++ [v]) else p)
      = fun p => decide (p.1 = a) := by
    funext q
    by_cases h : q.1 = k <;> simp [h]
  rw [hcomp, hf]
  by_cases h : p.1 = k
  · simp only [Option.map_some', h, if_true, Option.getD_some]
    by_cases hc : v ∈ p.2
    · rw [if_pos (by simpa using hc)]; exact hxp
    · rw [if_neg (by simpa using hc)]; exact List.mem_append_left _ hxp
  · simpa [h] using hxp

theorem mapHas_setAdd (m : Adj) (k v a : String) :
    mapHas (setAdd m k v) a = mapHas m a := by
  cases h1 : mapHas m a with
  | true =>
    rw [mapHas_iff] at h1 ⊢
    rw [setAdd_keys]
    exact h1
  | false =>
    rw [← Bool.not_eq_true] at h1 ⊢
    rw [mapHas_iff] at h1 ⊢
    rw [setAdd_keys]
    exact h1

theorem mapHas_ensureKey_self (m : Adj) (k : String) :
    mapHas (ensureKey m k) k = true := by
  rw [mapHas_iff, ensureKey_keys]
  split
  · rename_i h; exact (mapHas_iff m k).mp h
  · simp

theorem mapHas_mono_ensureKey (m : Adj) (k a : String)
    (h : mapHas m a = true) : mapHas (ensureKey m k) a = true := by
  rw [mapHas_iff] at h ⊢
  rw [ensureKey_keys]
  split
  · exact h
  · exact List.mem_append_left _ h

theorem setAdd_mem_self (m : Adj) (k v : String) (h : mapHas m k = true) :
    v ∈ adjGet (setAdd m k v) k := by
  rw [mapHas_iff] at h
  rcases List.mem_map.mp h with ⟨p, hp, hpk⟩
  have hfind : ∃ q, m.find? (fun p => p.1 = k) = some q ∧ q.1 = k := by
    cases hf : m.find? (fun p => p.1 = k) with
    | none =>
      exfalso
      have := List.find?_eq_none.mp hf p hp
      simp [hpk] at this
    | some q => exact ⟨q, rfl, by simpa using List.find?_some hf⟩
  rcases hfind with ⟨q, hf, hqk⟩
  unfold adjGet setAdd
  rw [List.find?_map]
  have hcomp : ((fun p => decide (p.1 = k)) ∘
      fun p => if p.1 = k then (p.1, if p.2.contains v then p.2 else p.2 ++ [v]) else p)
      = fun p => decide (p.1 = k) := by
    funext r
    by_cases h : r.1 = k <;> simp [h]
  rw [hcomp, hf]
  simp only [Option.map_some', hqk, if_true, Option.getD_some]
  by_cases hc : v ∈ q.2
  · rw [if_pos (by simpa using hc)]; exact hc
  · rw [if_neg (by simpa using hc)]; simp

theorem linkStep_self_mem (m : Adj) (a : String) :
    a ∈ adjGet (linkStep m (a, a)) a := by
  unfold linkStep
  apply adjGet_mono_setAdd
  exact setAdd_mem_self _ a a
    (mapHas_mono_ensureKey _ _ _ (mapHas_ensureKey_self m a))

theorem adjGet_mono_linkStep (m : Adj) (pr : String × String) (a x : String)
    (hx : x ∈ adjGet m a) : x ∈ adjGet (linkStep m pr) a := by
  unfold linkStep
  exact adjGet_mono_setAdd _ _ _ _ _ (adjGet_mono_setAdd _ _ _ _ _
    (adjGet_mono_ensureKey _ _ _ _ (adjGet_mono_ensureKey _ _ _ _ hx)))

theorem adjGet_mono_foldl (l : List (String × String)) (m : Adj) (a x : String)
    (hx : x ∈ adjGet m a) : x ∈ adjGet (l.foldl linkStep m) a := by
  induction l generalizing m with
  | nil => exact hx
  | cons hd tl ih => exact ih _ (adjGet_mono_linkStep m hd a x hx)

theorem foldl_self_mem (l : List (String × String)) (m : Adj) (a : String)
    (hl : (a, a) ∈ l) : a ∈ adjGet (l.foldl linkStep m) a := by
  induction l generalizing m with
  | nil => cases hl
  | cons hd tl ih =>
    rcases List.mem_cons.mp hl with h | h
    · subst h
      exact adjGet_mono_foldl tl _ a a (linkStep_self_mem m a)
    · exact ih _ h

end GraphTour

namespace GraphTour

theorem contains_iff_mem (l : List String) (a : String) :
    l.contains a = true ↔ a ∈ l := by
  simp

theorem mem_sortedEligibleNbrs (adj : Adj) (sel : List String) (x a : String)
    (h : a ∈ sortedEligibleNbrs adj sel x) : a ∈ sel := by
  unfold sortedEligibleNbrs at h
  have h2 := (List.perm_insertionSort (rankRel adj) _).mem_iff.mp h
  have h3 := List.mem_filter.mp h2
  exact (contains_iff_mem sel a).mp (by simpa using h3.2)

theorem dfs_props (adj : Adj) (sel : List String) : ∀ fuel : Nat,
    (∀ x order, ∃ acc, dfsVisit adj sel fuel x order = order ++ acc ∧
        (∀ a ∈ acc, a = x ∨ a ∈ sel) ∧
        (order.Nodup → x ∉ order → (order ++ acc).Nodup)) ∧
    (∀ ns order, ∃ acc, dfsNbrs adj sel fuel ns order = order ++ acc ∧
        (∀ a ∈ acc, a ∈ ns ∨ a ∈ sel) ∧
        (order.Nodup → (order ++ acc).Nodup)) := by
  intro fuel
  induction fuel with
  | zero =>
    constructor
    · intro x order
      refine ⟨[], by simp [dfsVisit], by simp, ?_⟩
      intro h _
      simpa using h
    · intro ns order
      refine ⟨[], ?_, by simp, ?_⟩
      · cases ns <;> simp [dfsNbrs]
      · intro h
        simpa using h
  | succ fuel ih =>
    obtain ⟨ihv, ihn⟩ := ih
    constructor
    · intro x order
      obtain ⟨acc, he, hmem, hnd⟩ := ihn (sortedEligibleNbrs adj sel x) (order ++ [x])
      refine ⟨x :: acc, ?_, ?_, ?_⟩
      · simp only [dfsVisit, he, List.append_assoc, List.singleton_append]
      · intro a ha
        rcases List.mem_cons.mp ha with h | h
        · exact Or.inl h
        · rcases hmem a h with h2 | h2
          · exact Or.inr (mem_sortedEligibleNbrs adj sel x a h2)
          · exact Or.inr h2
      · intro hord hx
        have h1 : (order ++ [x]).Nodup := by
          simp [List.nodup_append, hord, hx]
        have := hnd h1
        simpa [List.append_assoc] using this
    · intro ns order
      match ns with
      | [] =>
        refine ⟨[], by simp [dfsNbrs], by simp, ?_⟩
        intro h
        simpa using h
      | n :: ns =>
        by_cases hc : order.contains n
        · obtain ⟨acc, he, hmem, hnd⟩ := ihn ns order
          refine ⟨acc, ?_, ?_, hnd⟩
          · simp only [dfsNbrs, hc, if_true, he]
          · intro a ha
            rcases hmem a ha with h | h
            · exact Or.inl (List.mem_cons_of_mem n h)
            · exact Or.inr h
        · obtain ⟨acc1, he1, hmem1, hnd1⟩ := ihv n order
          obtain ⟨acc2, he2, hmem2, hnd2⟩ := ihn ns (order ++ acc1)
          refine ⟨acc1 ++ acc2, ?_, ?_, ?_⟩
          · simp only [dfsNbrs, hc, if_false, Bool.false_eq_true, he1, he2, List.append_assoc]
          · intro a ha
            rcases List.mem_append.mp ha with h | h
            · rcases hmem1 a h with h2 | h2
              · exact Or.inl (h2 ▸ List.mem_cons_self n ns)
              · exact Or.inr h2
            · rcases hmem2 a h with h2 | h2
              · exact Or.inl (List.mem_cons_of_mem n h2)
              · exact Or.inr h2
          · intro hord
            have hnmem : n ∉ order := fun hn => hc ((contains_iff_mem order n).mpr hn)
            have := hnd2 (hnd1 hord hnmem)
            simpa [List.append_assoc] using this

end GraphTour

namespace GraphTour

theorem dfsOuter_props (adj : Adj) (sel : List String) (fuel : Nat) :
    ∀ ranked order, ∃ acc, dfsOuter adj sel fuel ranked order = order ++ acc ∧
      (∀ a ∈ acc, a ∈ sel) ∧
      (order.Nodup → (order ++ acc).Nodup) := by
  intro ranked
  induction ranked with
  | nil =>
    intro order
    refine ⟨[], by simp [dfsOuter], by simp, ?_⟩
    intro h
    simpa using h
  | cons r rs ih =>
    intro order
    by_cases hg : sel.contains r = true ∧ ¬ order.contains r = true
    · obtain ⟨acc1, he1, hmem1, hnd1⟩ := (dfs_props adj sel fuel).1 r order
      obtain ⟨acc2, he2, hmem2, hnd2⟩ := ih (order ++ acc1)
      refine ⟨acc1 ++ acc2, ?_, ?_, ?_⟩
      · simp only [dfsOuter, if_pos hg, he1, he2, List.append_assoc]
      · intro a ha
        rcases List.mem_append.mp ha with h | h
        · rcases hmem1 a h with h2 | h2
          · exact h2 ▸ (contains_iff_mem sel r).mp hg.1
          · exact h2
        · exact hmem2 a h
      · intro hord
        have hr : r ∉ order := fun hr => hg.2 ((contains_iff_mem order r).mpr hr)
        have := hnd2 (hnd1 hord hr)
        simpa [List.append_assoc] using this
    · obtain ⟨acc, he, hmem, hnd⟩ := ih order
      refine ⟨acc, ?_, hmem, hnd⟩
      simp only [dfsOuter, if_neg hg, he]

theorem dfsOuter_mono (adj : Adj) (sel : List String) (fuel : Nat)
    (ranked order : List String) (a : String) (ha : a ∈ order) :
    a ∈ dfsOuter adj sel fuel ranked order := by
  obtain ⟨acc, he, _, _⟩ := dfsOuter_props adj sel fuel ranked order
  rw [he]
  exact List.mem_append_left _ ha

theorem dfsOuter_complete (adj : Adj) (sel : List String) (fuel : Nat) :
    ∀ ranked order r, r ∈ ranked → r ∈ sel →
      r ∈ dfsOuter adj sel (fuel + 1) ranked order := by
  intro ranked
  induction ranked with
  | nil => intro order r hr; cases hr
  | cons q rs ih =>
    intro order r hr hsel
    by_cases hg : sel.contains q = true ∧ ¬ order.contains q = true
    · have hstep : dfsOuter adj sel (fuel + 1) (q :: rs) order
          = dfsOuter adj sel (fuel + 1) rs (dfsVisit adj sel (fuel + 1) q order) := by
        simp only [dfsOuter, if_pos hg]
      rw [hstep]
      rcases List.mem_cons.mp hr with h | h
      · subst h
        obtain ⟨acc, he, _, _⟩ := (dfs_props adj sel fuel).2 (sortedEligibleNbrs adj sel r) (order ++ [r])
        apply dfsOuter_mono
        simp only [dfsVisit, he]
        simp
      · exact ih _ r h hsel
    · have hstep : dfsOuter adj sel (fuel + 1) (q :: rs) order
          = dfsOuter adj sel (fuel + 1) rs order := by
        simp only [dfsOuter, if_neg hg]
      rw [hstep]
      rcases List.mem_cons.mp hr with h | h
      · subst h
        push_neg at hg
        have hq : r ∈ order := by
          have := hg ((contains_iff_mem sel r).mpr hsel)
          simpa using (contains_iff_mem order r).mp (by simpa using this)
        exact dfsOuter_mono adj sel (fuel + 1) rs order r hq
      · exact ih _ r h hsel

end GraphTour

namespace GraphTour

theorem jsSlice0_eq_take (l : List String) (c : Int) :
    ∃ n, jsSlice0 l c = l.take n := by
  unfold jsSlice0
  split
  · exact ⟨_, rfl⟩
  · exact ⟨_, rfl⟩

theorem jsSlice0_sublist (l : List String) (c : Int) : (jsSlice0 l c).Sublist l := by
  obtain ⟨n, hn⟩ := jsSlice0_eq_take l c
  rw [hn]
  exact List.take_sublist n l

theorem rank_perm (m : Adj) : (rankNodesByDegree m).Perm (m.map Prod.fst) :=
  List.perm_insertionSort _ _

theorem buildDfsOrder_perm (adj : Adj) (hnd : (adj.map Prod.fst).Nodup) (count : Int) :
    (buildDfsOrder adj (rankNodesByDegree adj) count).Perm
      (jsSlice0 (rankNodesByDegree adj) count) := by
  have hrnd : (rankNodesByDegree adj).Nodup := (rank_perm adj).nodup_iff.mpr hnd
  set ranked := rankNodesByDegree adj with hranked
  set sel := jsSlice0 ranked count with hsel
  have hselnd : sel.Nodup := (jsSlice0_sublist ranked count).nodup hrnd
  obtain ⟨acc, he, hmem, hndp⟩ := dfsOuter_props adj sel (dfsFuel adj sel) ranked []
  have hout : buildDfsOrder adj ranked count = acc := by
    unfold buildDfsOrder
    rw [← hsel, he]
    simp
  have houtnd : acc.Nodup := by
    have := hndp (by simp)
    simpa using this
  have hsub1 : ∀ a ∈ acc, a ∈ sel := by
    intro a ha
    exact hmem a (by simpa using ha)
  have hsub2 : ∀ a ∈ sel, a ∈ acc := by
    intro a ha
    have hrk : a ∈ ranked := (jsSlice0_sublist ranked count).subset ha
    have h2 : a ∈ dfsOuter adj sel (dfsFuel adj sel) ranked [] :=
      dfsOuter_complete adj sel
        (sel.length + (adj.map (fun p => p.2.length)).sum + 1) ranked [] a hrk ha
    rw [he] at h2
    simpa using h2
  rw [hout]
  rw [List.perm_ext_iff_of_nodup houtnd hselnd]
  intro a
  exact ⟨hsub1 a, hsub2 a⟩

end GraphTour

namespace GraphTour

theorem ranked_length (adj : Adj) : (rankNodesByDegree adj).length = adj.length := by
  rw [(rank_perm adj).length_eq, List.length_map]

/-- C5: for every graph description and count at least zero, the tour
order has no duplicate ids, every output id is a key of the adjacency map
built from the graph, the output length is the minimum of the count and
the number of nodes, and when the count covers all nodes every key appears
in the output (so the output is then a permutation of the node set). -/
theorem claim5 (g : GraphLike) (count : Int) (hc : 0 ≤ count) :
    (buildTourOrder g count).Nodup ∧
    (∀ x ∈ buildTourOrder g count, x ∈ (buildAdjacency g).map Prod.fst) ∧
    (buildTourOrder g count).length = min count.toNat (buildAdjacency g).length ∧
    ((buildAdjacency g).length ≤ count.toNat →
      ∀ k ∈ (buildAdjacency g).map Prod.fst, k ∈ buildTourOrder g count) := by
  by_cases hlen : (buildAdjacency g).length = 0
  · have hnil : buildAdjacency g = [] := List.length_eq_zero.mp hlen
    have hout : buildTourOrder g count = [] := by
      unfold buildTourOrder
      simp [hlen]
    rw [hout, hnil]
    simp
  · have hout : buildTourOrder g count
        = buildDfsOrder (buildAdjacency g) (rankNodesByDegree (buildAdjacency g)) count := by
      unfold buildTourOrder
      simp [hlen]
    set adj := buildAdjacency g with hadj
    have hperm := buildDfsOrder_perm adj (buildAdjacency_nodupKeys g) count
    rw [hout]
    have hseltake : jsSlice0 (rankNodesByDegree adj) count
        = (rankNodesByDegree adj).take count.toNat := by
      unfold jsSlice0
      rw [if_pos hc]
    constructor
    · apply hperm.nodup_iff.mpr
      exact (jsSlice0_sublist _ count).nodup ((rank_perm adj).nodup_iff.mpr (buildAdjacency_nodupKeys g))
    constructor
    · intro x hx
      have h1 : x ∈ jsSlice0 (rankNodesByDegree adj) count := hperm.subset hx
      have h2 : x ∈ rankNodesByDegree adj := (jsSlice0_sublist _ count).subset h1
      exact (rank_perm adj).subset h2
    constructor
    · rw [hperm.length_eq, hseltake, List.length_take, ranked_length]
    · intro hcover k hk
      have hkr : k ∈ rankNodesByDegree adj := (rank_perm adj).mem_iff.mpr hk
      have hsel : k ∈ jsSlice0 (rankNodesByDegree adj) count := by
        rw [hseltake, List.take_of_length_le (by rw [ranked_length]; exact hcover)]
        exact hkr
      exact hperm.mem_iff.mpr hsel

/-- Witness for C5 at the worked example of spec section 8 with count 3. -/
theorem claim5_witness :
    0 ≤ (3 : Int) ∧ (buildTourOrder exGraphWorked 3).Nodup :=
  ⟨by decide, (claim5 exGraphWorked 3 (by decide)).1⟩

/-- C4 counterexample: for the two-node graph and count -1 the claim
"count ≤ 0 implies the empty sequence" fails: JS slice semantics make the
eligible set the first node, so the output is ["A"], not empty. -/
theorem claim4_counterexample :
    buildTourOrder exGraphTwoNodes (-1) = ["A"] ∧
    ¬ buildTourOrder exGraphTwoNodes (-1) = [] := by decide

/-- C4 amended: buildTourOrder(graph, 0) is empty, but for negative
count `slice(0, count)` keeps the first `max(nodes + count, 0)` ranked
nodes, so for count ≤ 0 the output is empty exactly when count = 0 or the
node count plus count is at most zero. -/
theorem claim4_amended (g : GraphLike) (count : Int) (hc : count ≤ 0) :
    (buildTourOrder g count = [] ↔
      (count = 0 ∨ ((buildAdjacency g).length : Int) + count ≤ 0)) := by
  by_cases hlen : (buildAdjacency g).length = 0
  · have hout : buildTourOrder g count = [] := by
      unfold buildTourOrder
      simp [hlen]
    rw [hout, hlen]
    simp
    omega
  · have hout : buildTourOrder g count
        = buildDfsOrder (buildAdjacency g) (rankNodesByDegree (buildAdjacency g)) count := by
      unfold buildTourOrder
      simp [hlen]
    set adj := buildAdjacency g with hadj
    have hperm := buildDfsOrder_perm adj (buildAdjacency_nodupKeys g) count
    rw [hout]
    have hlen2 : (buildDfsOrder adj (rankNodesByDegree adj) count).length
        = (jsSlice0 (rankNodesByDegree adj) count).length := hperm.length_eq
    rcases lt_or_eq_of_le hc with hneg | hzero
    · have hselneg : jsSlice0 (rankNodesByDegree adj) count
          = (rankNodesByDegree adj).take (((rankNodesByDegree adj).length : Int) + count).toNat := by
        unfold jsSlice0
        rw [if_neg (by omega)]
      rw [hselneg, List.length_take] at hlen2
      rw [← List.length_eq_zero, hlen2, ranked_length]
      constructor
      · intro h
        right
        omega
      · intro h
        rcases h with h | h
        · omega
        · omega
    · subst hzero
      have hsel0 : jsSlice0 (rankNodesByDegree adj) 0 = [] := by
        unfold jsSlice0
        simp
      rw [← List.length_eq_zero, hlen2, hsel0]
      simp

/-- Witness for the amended C4: two nodes and count -2 give an empty tour. -/
theorem claim4_amended_witness :
    (-2 : Int) ≤ 0 ∧ buildTourOrder exGraphTwoNodes (-2) = [] :=
  ⟨by decide, (claim4_amended exGraphTwoNodes (-2) (by decide)).mpr (Or.inr (by decide))⟩

end GraphTour

namespace GraphTour

/-- C7 counterexample: with the single self-loop link A-A, the node A is
a member of its own neighbor set and the self-loop contributes one to its
degree, contradicting the claim that self-loops are ignored. -/
theorem claim7_counterexample :
    "A" ∈ adjGet (buildAdjacency exGraphSelfLoop) "A" ∧
    degreeOf (buildAdjacency exGraphSelfLoop) "A" = 1 := by decide

/-- C7 amended: a link or triple whose two endpoints normalize to the
same id A makes A a member of its own neighbor set (exactly once, since
the Set deduplicates: the neighbor list stays duplicate-free), so a
self-loop contributes exactly one to the degree used for ranking. -/
theorem claim7_amended (g : GraphLike) (a : String)
    (h : (a, a) ∈ extractLinks g ∨ (a, a) ∈ extractTriples g) :
    a ∈ adjGet (buildAdjacency g) a ∧ (adjGet (buildAdjacency g) a).Nodup := by
  constructor
  · have hb : buildAdjacency g = (extractTriples g).foldl linkStep
        ((extractLinks g).foldl linkStep
          ((extractNodeIds g).foldl (fun m nodeId => mapSet m nodeId []) [])) := rfl
    rw [hb]
    rcases h with h | h
    · exact adjGet_mono_foldl _ _ a a (foldl_self_mem _ _ a h)
    · exact foldl_self_mem _ _ a h
  · exact adjGet_vals_nodup _ (buildAdjacency_vals g) a

/-- Witness for the amended C7 at the self-loop graph. -/
theorem claim7_amended_witness :
    (("A", "A") ∈ extractLinks exGraphSelfLoop ∨
      ("A", "A") ∈ extractTriples exGraphSelfLoop) ∧
    "A" ∈ adjGet (buildAdjacency exGraphSelfLoop) "A" :=
  ⟨Or.inl (by decide), (claim7_amended exGraphSelfLoop "A" (Or.inl (by decide))).1⟩

theorem mem_dedupFirstAux (seen l : List String) (a : String)
    (h : a ∈ dedupFirstAux seen l) : a ∈ l := by
  induction l generalizing seen with
  | nil => cases h
  | cons hd tl ih =>
    unfold dedupFirstAux at h
    split at h
    · exact List.mem_cons_of_mem hd (ih _ h)
    · rcases List.mem_cons.mp h with h2 | h2
      · exact h2 ▸ List.mem_cons_self hd tl
      · exact List.mem_cons_of_mem hd (ih _ h2)

theorem linkStep_keys_sub (m : Adj) (pr : String × String) (k : String)
    (h : k ∈ (linkStep m pr).map Prod.fst) :
    k ∈ m.map Prod.fst ∨ k = pr.1 ∨ k = pr.2 := by
  unfold linkStep at h
  rw [setAdd_keys, setAdd_keys, ensureKey_keys] at h
  split at h
  · rw [ensureKey_keys] at h
    split at h
    · exact Or.inl h
    · rcases List.mem_append.mp h with h2 | h2
      · exact Or.inl h2
      · simp at h2; exact Or.inr (Or.inl h2)
  · rw [ensureKey_keys] at h
    split at h
    · rcases List.mem_append.mp h with h2 | h2
      · exact Or.inl h2
      · simp at h2; exact Or.inr (Or.inr h2)
    · rcases List.mem_append.mp h with h2 | h2
      · rcases List.mem_append.mp h2 with h3 | h3
        · exact Or.inl h3
        · simp at h3; exact Or.inr (Or.inl h3)
      · simp at h2; exact Or.inr (Or.inr h2)

theorem foldl_linkStep_keys_sub (l : List (String × String)) (m : Adj) (k : String)
    (h : k ∈ ((l.foldl linkStep m).map Prod.fst)) :
    k ∈ m.map Prod.fst ∨ ∃ pr ∈ l, k = pr.1 ∨ k = pr.2 := by
  induction l generalizing m with
  | nil => exact Or.inl h
  | cons hd tl ih =>
    rcases ih _ h with h2 | h2
    · rcases linkStep_keys_sub m hd k h2 with h3 | h3
      · exact Or.inl h3
      · exact Or.inr ⟨hd, List.mem_cons_self hd tl, h3⟩
    · rcases h2 with ⟨pr, hpr, hk⟩
      exact Or.inr ⟨pr, List.mem_cons_of_mem hd hpr, hk⟩

theorem mapSet_fold_keys_sub (ids : List String) (m : Adj) (k : String)
    (h : k ∈ ((ids.foldl (fun m nodeId => mapSet m nodeId []) m).map Prod.fst)) :
    k ∈ m.map Prod.fst ∨ k ∈ ids := by
  induction ids generalizing m with
  | nil => exact Or.inl h
  | cons hd tl ih =>
    rcases ih _ h with h2 | h2
    · rw [mapSet_keys] at h2
      split at h2
      · exact Or.inl h2
      · rcases List.mem_append.mp h2 with h3 | h3
        · exact Or.inl h3
        · simp at h3; exact Or.inr (h3 ▸ List.mem_cons_self hd tl)
    · exact Or.inr (List.mem_cons_of_mem hd h2)

theorem extractNodeIds_ne_empty (g : GraphLike) :
    ∀ id ∈ extractNodeIds g, id ≠ "" := by
  intro id hid
  have h1 := mem_dedupFirstAux _ _ _ hid
  have h2 := List.mem_filter.mp h1
  simpa using h2.2

theorem extractLinks_ne_empty (g : GraphLike) :
    ∀ pr ∈ extractLinks g, pr.1 ≠ "" ∧ pr.2 ≠ "" := by
  intro pr hpr
  unfold extractLinks at hpr
  rcases List.mem_append.mp hpr with h | h <;>
  · rcases List.mem_filterMap.mp h with ⟨l, _, he⟩
    simp only at he
    split at he
    · rename_i hcond
      cases he
      exact hcond
    · cases he

theorem extractTriples_ne_empty (g : GraphLike) :
    ∀ pr ∈ extractTriples g, pr.1 ≠ "" ∧ pr.2 ≠ "" := by
  intro pr hpr
  unfold extractTriples at hpr
  rcases List.mem_filterMap.mp hpr with ⟨l, _, he⟩
  simp only at he
  split at he
  · rename_i hcond
    cases he
    exact hcond
  · cases he

/-- C10: node-identity extraction follows the spec's field-precedence
rule (the first truthy field among id, _id, _key, name, label,
stringified, else the empty string; totality and determinism hold by
construction of the embedding), and every caller drops empty results:
extracted node ids, link endpoints and triple endpoints are non-empty,
and hence every key of the adjacency map is non-empty. -/
theorem claim10 :
    (∀ f1 f2 f3 f4 f5 : JsPrim, toNodeId (.vobj f1 f2 f3 f4 f5)
        = specFieldExtract [f1, f2, f3, f4, f5]) ∧
    (∀ g : GraphLike,
      (∀ id ∈ extractNodeIds g, id ≠ "") ∧
      (∀ pr ∈ extractLinks g, pr.1 ≠ "" ∧ pr.2 ≠ "") ∧
      (∀ pr ∈ extractTriples g, pr.1 ≠ "" ∧ pr.2 ≠ "") ∧
      (∀ k ∈ (buildAdjacency g).map Prod.fst, k ≠ "")) := by
  constructor
  · intro f1 f2 f3 f4 f5
    unfold toNodeId specFieldExtract jsOr
    cases h1 : f1.truthy <;> cases h2 : f2.truthy <;> cases h3 : f3.truthy <;>
      cases h4 : f4.truthy <;> cases h5 : f5.truthy <;>
      simp [List.find?, h1, h2, h3, h4, h5, JsPrim.display]
  · intro g
    refine ⟨extractNodeIds_ne_empty g, extractLinks_ne_empty g,
      extractTriples_ne_empty g, ?_⟩
    intro k hk
    have hb : buildAdjacency g = (extractTriples g).foldl linkStep
        ((extractLinks g).foldl linkStep
          ((extractNodeIds g).foldl (fun m nodeId => mapSet m nodeId []) [])) := rfl
    rw [hb] at hk
    rcases foldl_linkStep_keys_sub _ _ _ hk with h | ⟨pr, hpr, he⟩
    · rcases foldl_linkStep_keys_sub _ _ _ h with h2 | ⟨pr, hpr, he⟩
      · rcases mapSet_fold_keys_sub _ _ _ h2 with h3 | h3
        · simp at h3
        · exact extractNodeIds_ne_empty g k h3
      · rcases he with he | he
        · exact he ▸ (extractLinks_ne_empty g pr hpr).1
        · exact he ▸ (extractLinks_ne_empty g pr hpr).2
    · rcases he with he | he
      · exact he ▸ (extractTriples_ne_empty g pr hpr).1
      · exact he ▸ (extractTriples_ne_empty g pr hpr).2

end GraphTour

namespace TourPanel

theorem processTourQueue_typing (budget : Int) (s : TourState) (h : s.typing = true) :
    processTourQueue budget s = s := by
  unfold processTourQueue
  rw [if_pos h]

theorem processTourQueue_nil (budget : Int) (s : TourState) (h : s.lines = []) :
    processTourQueue budget s = s := by
  unfold processTourQueue
  split
  · rfl
  · split
    · rfl
    · rw [h]

theorem processTourQueue_nonpos (budget : Int) (s : TourState) (h : s.pendingSteps ≤ 0) :
    processTourQueue budget s = s := by
  unfold processTourQueue
  repeat' split
  any_goals rfl

theorem processTourQueue_textBuffer (budget : Int) (s : TourState) :
    (processTourQueue budget s).textBuffer = s.textBuffer := by
  unfold processTourQueue
  repeat' split
  all_goals rfl

theorem processTourQueue_responseDone (budget : Int) (s : TourState) :
    (processTourQueue budget s).responseDone = s.responseDone := by
  unfold processTourQueue
  repeat' split
  all_goals rfl

theorem processTourQueue_lines_sublist (budget : Int) (s : TourState) :
    (processTourQueue budget s).lines.Sublist s.lines := by
  unfold processTourQueue
  repeat' split
  all_goals simp_all

/-- C9: the per-character delay equals the spec's
clamp(floor(max(minFloor, budget - endBuffer) / max(length, 1)), charMinMs,
charMaxMs) formula and always lies within [charMinMs, charMaxMs] = [4, 18];
in particular a 50-character line with a 1000 ms budget gets 12 ms per
character, inside [4, 18]. -/
theorem claim9 :
    (∀ (budget : Int) (len : Nat),
      perCharMs budget len = specPerCharMs budget len ∧
      tourCharMinMs ≤ perCharMs budget len ∧
      perCharMs budget len ≤ tourCharMaxMs) ∧
    perCharMs 1000 50 = 12 ∧ tourCharMinMs ≤ 12 ∧ 12 ≤ tourCharMaxMs := by
  refine ⟨?_, by decide, by decide, by decide⟩
  intro budget len
  unfold perCharMs specPerCharMs specClamp availableMs tourCharMinMs tourCharMaxMs tourEndBufferMs
  omega

/-- C2 counterexample: run a tour where a step signal and the line "ab"
arrive (the reveal starts, one character shown), then a stop signal.  The
claim fails on the code: after the stop the typing flag is still set, the
pending-step count is still 1, the reveal chain is still live, and the
next timer fires a further character append ("ab"). -/
theorem claim2_counterexample :
    (runEvents 3200 initTourState
        [.esignal .step, .edelta ("ab\n".data), .esignal .stop]).typing = true ∧
    (runEvents 3200 initTourState
        [.esignal .step, .edelta ("ab\n".data), .esignal .stop]).pendingSteps = 1 ∧
    (runEvents 3200 initTourState
        [.esignal .step, .edelta ("ab\n".data), .esignal .stop]).reveals ≠ [] ∧
    (stepEv 3200 (runEvents 3200 initTourState
        [.esignal .step, .edelta ("ab\n".data), .esignal .stop]) .etimer).content
      = "ab".data := by decide

/-- C2 amended: a stop signal only clears the UI streaming flag; it does
not cancel the active reveal (a pending per-character timer still fires
and appends the next character afterwards), and it leaves the queued-line
backlog and pending-step count untouched.  Those are only reset when the
next tour start runs, which does begin from a clean state. -/
theorem claim2_amended :
    (∀ (budget : Int) (s : TourState),
      stepEv budget s (.esignal .stop) = { s with streamingUI := false }) ∧
    (∀ (budget : Int) (s : TourState) (r : RevealState) (rest : List RevealState),
      s.reveals = r :: rest → s.typing = true → r.index < r.line.length →
      (stepEv budget (stepEv budget s (.esignal .stop)) .etimer).content
        = s.content ++ [r.line.getD r.index ' ']) ∧
    (∀ (budget : Int) (s : TourState),
      stepEv budget s .estart
        = { s with textBuffer := [], lines := [], pendingSteps := 0, responseDone := false,
                   reveals := [], typing := false, content := [], streamingUI := true }) := by
  refine ⟨fun _ _ => rfl, ?_, fun _ _ => rfl⟩
  intro budget s r rest hr ht hi
  show (tickStep budget { s with streamingUI := false }).content = _
  unfold tickStep
  simp only [hr]
  rw [if_neg (by simp [ht])]
  rw [if_pos hi]

/-- Witness for the amended C2: a concrete mid-reveal state, stopped,
still appends the second character of "ab" on the next timer. -/
theorem claim2_amended_witness :
    ((runEvents 3200 initTourState [.esignal .step, .edelta ("ab\n".data)]).reveals
        = [⟨"ab".data, 1, perCharMs 3200 2⟩] ∧
      (runEvents 3200 initTourState [.esignal .step, .edelta ("ab\n".data)]).typing = true ∧
      (1 : Nat) < "ab".data.length) ∧
    (stepEv 3200 (stepEv 3200 (runEvents 3200 initTourState
        [.esignal .step, .edelta ("ab\n".data)]) (.esignal .stop)) .etimer).content
      = (runEvents 3200 initTourState [.esignal .step, .edelta ("ab\n".data)]).content
        ++ [("ab".data).getD 1 ' '] :=
  ⟨⟨by decide, by decide, by decide⟩,
    claim2_amended.2.1 3200
      (runEvents 3200 initTourState [.esignal .step, .edelta ("ab\n".data)])
      ⟨"ab".data, 1, perCharMs 3200 2⟩ []
      (by decide) (by decide) (by decide)⟩

end TourPanel

namespace TourPanel

theorem processTourQueue_inv (budget : Int) (s : TourState) (h : RevealInv s) :
    RevealInv (processTourQueue budget s) := by
  unfold processTourQueue
  split
  · exact h
  · split
    · exact h
    · rename_i hty _
      split
      · exact h
      · rename_i nextLine rest hlines
        split
        · rcases h with ⟨h1, _⟩ | ⟨h1, h2⟩
          · exact absurd h1 hty
          · exact Or.inr ⟨h1, h2⟩
        · rcases h with ⟨h1, _⟩ | ⟨_, h2⟩
          · exact absurd h1 hty
          · exact Or.inl ⟨rfl, by simp [h2]⟩

theorem tickStep_inv (budget : Int) (s : TourState) (h : RevealInv s) :
    RevealInv (tickStep budget s) := by
  unfold tickStep
  split
  · exact h
  · rename_i r rest hrev
    rcases h with ⟨h1, h2⟩ | ⟨h1, h2⟩
    · rw [hrev] at h2
      simp at h2
      subst h2
      split
      · rename_i hty
        exact absurd h1 hty
      · split
        · exact Or.inl ⟨h1, by simp⟩
        · apply processTourQueue_inv
          exact Or.inr ⟨rfl, rfl⟩
    · rw [hrev] at h2
      cases h2

theorem ingestTourText_inv (budget : Int) (d : List Char) (s : TourState)
    (h : RevealInv s) : RevealInv (ingestTourText budget d s) := by
  simp only [ingestTourText]
  split
  · rcases h with ⟨h1, h2⟩ | ⟨h1, h2⟩
    · exact Or.inl ⟨h1, h2⟩
    · exact Or.inr ⟨h1, h2⟩
  · apply processTourQueue_inv
    rcases h with ⟨h1, h2⟩ | ⟨h1, h2⟩
    · exact Or.inl ⟨h1, h2⟩
    · exact Or.inr ⟨h1, h2⟩

theorem stepEv_inv (budget : Int) (s : TourState) (e : TourEvent)
    (h : RevealInv s) : RevealInv (stepEv budget s e) := by
  cases e with
  | edelta d => exact ingestTourText_inv budget d s h
  | esignal k =>
    cases k with
    | step =>
      apply processTourQueue_inv
      rcases h with ⟨h1, h2⟩ | ⟨h1, h2⟩
      · exact Or.inl ⟨h1, h2⟩
      · exact Or.inr ⟨h1, h2⟩
    | done =>
      show RevealInv (if s.responseDone then { s with streamingUI := false } else s)
      split
      · rcases h with ⟨h1, h2⟩ | ⟨h1, h2⟩
        · exact Or.inl ⟨h1, h2⟩
        · exact Or.inr ⟨h1, h2⟩
      · exact h
    | stop =>
      rcases h with ⟨h1, h2⟩ | ⟨h1, h2⟩
      · exact Or.inl ⟨h1, h2⟩
      · exact Or.inr ⟨h1, h2⟩
  | etimer => exact tickStep_inv budget s h
  | estart => exact Or.inr ⟨rfl, rfl⟩
  | estreamDone =>
    apply processTourQueue_inv
    rcases h with ⟨h1, h2⟩ | ⟨h1, h2⟩
    · exact Or.inl ⟨h1, h2⟩
    · exact Or.inr ⟨h1, h2⟩

theorem runEvents_inv (budget : Int) (evs : List TourEvent) :
    RevealInv (runEvents budget initTourState evs) := by
  have base : RevealInv initTourState := Or.inr ⟨rfl, rfl⟩
  rw [runEvents]
  generalize initTourState = s at base ⊢
  induction evs generalizing s with
  | nil => exact base
  | cons e tl ih =>
    rw [List.foldl_cons]
    exact ih _ (stepEv_inv budget s e base)

end TourPanel

namespace TourPanel

open JsStr

theorem splitOnNl_append_newline (l : List Char) (h : '\n' ∉ l) :
    splitOnNl (l ++ ['\n']) = [l, []] := by
  induction l with
  | nil => rfl
  | cons c cs ih =>
    have hc : ¬ c = '\n' := fun hc => h (hc ▸ List.mem_cons_self c cs)
    have ih2 := ih (fun hm => h (List.mem_cons_of_mem c hm))
    have ih3 : splitOnNl (cs.append ['\n']) = [cs, []] := ih2
    simp only [List.cons_append, splitOnNl, if_neg hc, ih3]

theorem runEvents_append (budget : Int) (s : TourState) (a b : List TourEvent) :
    runEvents budget s (a ++ b) = runEvents budget (runEvents budget s a) b := by
  unfold runEvents
  exact List.foldl_append _ _ a b

theorem runEvents_replicate_timer (budget : Int) :
    ∀ (n : Nat) (s : TourState),
      runEvents budget s (List.replicate n .etimer) = runTimers budget n s := by
  intro n
  induction n with
  | zero => intro s; rfl
  | succ n ih =>
    intro s
    rw [List.replicate_succ]
    show runEvents budget (stepEv budget s .etimer) (List.replicate n .etimer) = _
    rw [ih]
    rfl

theorem runTimers_add (budget : Int) :
    ∀ (a b : Nat) (s : TourState),
      runTimers budget (a + b) s = runTimers budget b (runTimers budget a s) := by
  intro a
  induction a with
  | zero => intro b s; simp [runTimers]
  | succ a ih =>
    intro b s
    have : a + 1 + b = (a + b) + 1 := by omega
    rw [this]
    show runTimers budget (a + b) (tickStep budget s) = _
    rw [ih]
    rfl

theorem tickStep_mid (budget : Int) (s : TourState) (l : List Char) (i pc : Nat)
    (ht : s.typing = true) (hr : s.reveals = [⟨l, i, pc⟩]) (hi : i < l.length) :
    tickStep budget s
      = { s with content := s.content ++ [l.getD i ' '], reveals := [⟨l, i + 1, pc⟩] } := by
  obtain ⟨tb, ln, ps, ty, rv, ct, rd, ui⟩ := s
  simp only at ht hr
  subst ht
  subst hr
  simp only [tickStep]
  rw [if_neg (by simp)]
  rw [if_pos hi]

theorem tickStep_end (budget : Int) (s : TourState) (l : List Char) (i pc : Nat)
    (ht : s.typing = true) (hr : s.reveals = [⟨l, i, pc⟩]) (hi : ¬ i < l.length) :
    tickStep budget s
      = processTourQueue budget
          { s with content := s.content ++ ['\n'], typing := false,
                   pendingSteps := s.pendingSteps - 1, reveals := [] } := by
  obtain ⟨tb, ln, ps, ty, rv, ct, rd, ui⟩ := s
  simp only at ht hr
  subst ht
  subst hr
  simp only [tickStep]
  rw [if_neg (by simp)]
  rw [if_neg hi]

theorem finishLine (budget : Int) :
    ∀ (n : Nat) (s : TourState) (l : List Char) (i pc : Nat),
      s.typing = true → s.reveals = [⟨l, i, pc⟩] → i ≤ l.length → n = l.length - i →
      runTimers budget (n + 1) s
        = processTourQueue budget
            { s with content := s.content ++ l.drop i ++ ['\n'],
                     typing := false, pendingSteps := s.pendingSteps - 1, reveals := [] } := by
  intro n
  induction n with
  | zero =>
    intro s l i pc ht hr hle hn
    have hi : ¬ i < l.length := by omega
    show runTimers budget 0 (tickStep budget s) = _
    rw [tickStep_end budget s l i pc ht hr hi]
    have hd : l.drop i = [] := List.drop_eq_nil_of_le (by omega)
    rw [hd]
    simp [runTimers]
  | succ n ih =>
    intro s l i pc ht hr hle hn
    have hi : i < l.length := by omega
    show runTimers budget (n + 1) (tickStep budget s) = _
    rw [tickStep_mid budget s l i pc ht hr hi]
    rw [ih { s with content := s.content ++ [l.getD i ' '], reveals := [⟨l, i + 1, pc⟩] }
      l (i + 1) pc ht rfl (by omega) (by omega)]
    have hdrop : l.drop i = l.getD i ' ' :: l.drop (i + 1) := by
      rw [List.getD_eq_getElem l ' ' hi]
      exact List.drop_eq_getElem_cons hi
    rw [hdrop]
    simp

end TourPanel

namespace TourPanel

open JsStr

theorem processTourQueue_start (budget : Int) (s : TourState) (l : List Char)
    (rest : List (List Char)) (ht : s.typing = false) (hp : 0 < s.pendingSteps)
    (hl : s.lines = l :: rest) (hne : l ≠ []) :
    processTourQueue budget s
      = { s with lines := rest, typing := true,
                 content := s.content ++ [l.getD 0 ' '],
                 reveals := s.reveals ++ [⟨l, 1, perCharMs budget l.length⟩] } := by
  obtain ⟨tb, ln, ps, ty, rv, ct, rd, ui⟩ := s
  simp only at ht hl hp
  subst ht
  subst hl
  simp only [processTourQueue]
  rw [if_neg (by simp)]
  rw [if_neg (by omega)]
  rw [if_neg hne]

theorem runEvents_cons (budget : Int) (s : TourState) (e : TourEvent)
    (es : List TourEvent) :
    runEvents budget s (e :: es) = runEvents budget (stepEv budget s e) es := rfl

theorem ingest_enqueue (budget : Int) (s : TourState) (l : List Char)
    (hb : s.textBuffer = []) (hne : l ≠ []) (htr : trimChars l = l) (hnl : '\n' ∉ l)
    (ht : s.typing = true) :
    ingestTourText budget (l ++ ['\n']) s = { s with lines := s.lines ++ [l] } := by
  obtain ⟨tb, ln, ps, ty, rv, ct, rd, ui⟩ := s
  simp only at hb ht
  subst hb
  subst ht
  simp only [ingestTourText, List.nil_append]
  rw [splitOnNl_append_newline l hnl]
  simp only [List.dropLast_cons₂, List.dropLast_single, List.map_cons, List.map_nil, htr,
    List.getLastD]
  rw [List.filter_cons_of_pos (by simpa using hne), List.filter_nil]
  rw [if_neg (by simp)]
  exact processTourQueue_typing budget _ rfl

theorem ingest_start (budget : Int) (s : TourState) (l : List Char)
    (hb : s.textBuffer = []) (hne : l ≠ []) (htr : trimChars l = l) (hnl : '\n' ∉ l)
    (ht : s.typing = false) (hl : s.lines = []) (hp : 0 < s.pendingSteps) :
    ingestTourText budget (l ++ ['\n']) s
      = { s with typing := true, content := s.content ++ [l.getD 0 ' '],
                 reveals := s.reveals ++ [⟨l, 1, perCharMs budget l.length⟩] } := by
  obtain ⟨tb, ln, ps, ty, rv, ct, rd, ui⟩ := s
  simp only at hb ht hl hp
  subst hb
  subst ht
  subst hl
  simp only [ingestTourText, List.nil_append]
  rw [splitOnNl_append_newline l hnl]
  simp only [List.dropLast_cons₂, List.dropLast_single, List.map_cons, List.map_nil, htr,
    List.getLastD]
  rw [List.filter_cons_of_pos (by simpa using hne), List.filter_nil]
  rw [if_neg (by simp)]
  rw [processTourQueue_start budget _ l [] rfl (by simpa using hp) (by simp) hne]
  simp

theorem steps_phase (budget : Int) :
    ∀ (k : Nat) (s : TourState), s.lines = [] →
      runEvents budget s (List.replicate k (.esignal .step))
        = { s with pendingSteps := s.pendingSteps + k } := by
  intro k
  induction k with
  | zero =>
    intro s hl
    show s = _
    cases s
    simp
  | succ k ih =>
    intro s hl
    rw [List.replicate_succ, runEvents_cons]
    have hstep : stepEv budget s (.esignal .step)
        = { s with pendingSteps := s.pendingSteps + 1 } := by
      show processTourQueue budget { s with pendingSteps := s.pendingSteps + 1 } = _
      exact processTourQueue_nil budget _ hl
    rw [hstep]
    rw [ih { s with pendingSteps := s.pendingSteps + 1 } hl]
    cases s
    simp
    omega

theorem deltas_enqueue (budget : Int) :
    ∀ (rs : List (List Char)) (s : TourState), (∀ l ∈ rs, wfLine l) →
      s.textBuffer = [] → s.typing = true →
      runEvents budget s (rs.map (fun l => .edelta (l ++ ['\n'])))
        = { s with lines := s.lines ++ rs } := by
  intro rs
  induction rs with
  | nil =>
    intro s _ _ _
    show s = _
    cases s
    simp
  | cons l rest ih =>
    intro s hwf hb ht
    rw [List.map_cons, runEvents_cons]
    have hw := hwf l (List.mem_cons_self l rest)
    have hstep : stepEv budget s (.edelta (l ++ ['\n']))
        = { s with lines := s.lines ++ [l] } :=
      ingest_enqueue budget s l hb hw.1 hw.2.1 hw.2.2 ht
    rw [hstep]
    rw [ih { s with lines := s.lines ++ [l] }
      (fun l2 h2 => hwf l2 (List.mem_cons_of_mem l h2)) hb ht]
    cases s
    simp

end TourPanel

namespace TourPanel

open JsStr

theorem joinNl_cons (l : List Char) (rest : List (List Char)) :
    joinNl (l :: rest) = l ++ '\n' :: joinNl rest := by
  simp [joinNl]

theorem totalChars_cons (l : List Char) (rest : List (List Char)) :
    totalChars (l :: rest) = l.length + totalChars rest := by
  simp [totalChars]

theorem drain_mid (budget : Int) :
    ∀ (rest : List (List Char)) (l : List Char) (i pc : Nat) (s : TourState),
      l ≠ [] → (∀ l2 ∈ rest, wfLine l2) → 1 ≤ i → i ≤ l.length →
      ((rest.length : Int) < s.pendingSteps) → s.typing = true →
      s.reveals = [⟨l, i, pc⟩] → s.lines = rest →
      runTimers budget ((l.length - i + 1) + totalChars rest) s
        = { s with content := s.content ++ l.drop i ++ '\n' :: joinNl rest,
                   lines := [], pendingSteps := s.pendingSteps - 1 - rest.length,
                   typing := false, reveals := [] } := by
  intro rest
  induction rest with
  | nil =>
    intro l i pc s hne hwfr h1 hle hp ht hr hl
    rw [show (l.length - i + 1) + totalChars [] = (l.length - i) + 1 from by
      simp [totalChars]]
    rw [finishLine budget (l.length - i) s l i pc ht hr hle rfl]
    rw [processTourQueue_nil budget _ (by simpa using hl)]
    obtain ⟨tb, ln, ps, ty, rv, ct, rd, ui⟩ := s
    simp only at hl
    subst hl
    simp [joinNl]
  | cons l2 rest2 ih =>
    intro l i pc s hne hwfr h1 hle hp ht hr hl
    have hw2 := hwfr l2 (List.mem_cons_self l2 rest2)
    have hlen2 : 1 ≤ l2.length := by
      cases hl2 : l2 with
      | nil => exact absurd hl2 hw2.1
      | cons a b => simp
    obtain ⟨tb, ln, ps, ty, rv, ct, rd, ui⟩ := s
    simp only at ht hr hl hp
    subst ht
    subst hr
    subst hl
    simp only [List.length_cons] at hp ⊢
    rw [show (l.length - i + 1) + totalChars (l2 :: rest2)
        = ((l.length - i) + 1) + ((l2.length - 1 + 1) + totalChars rest2) from by
      rw [totalChars_cons]
      omega]
    rw [runTimers_add]
    rw [finishLine budget (l.length - i)
      ⟨tb, l2 :: rest2, ps, true, [⟨l, i, pc⟩], ct, rd, ui⟩ l i pc rfl rfl hle rfl]
    dsimp only
    rw [processTourQueue_start budget
      ⟨tb, l2 :: rest2, ps - 1, false, [], ct ++ l.drop i ++ ['\n'], rd, ui⟩
      l2 rest2 rfl (by dsimp only; push_cast at hp; omega) rfl hw2.1]
    dsimp only
    simp only [List.nil_append]
    rw [ih l2 1 (perCharMs budget l2.length)
      ⟨tb, rest2, ps - 1, true, [⟨l2, 1, perCharMs budget l2.length⟩],
        ct ++ l.drop i ++ ['\n'] ++ [l2.getD 0 ' '], rd, ui⟩
      hw2.1 (fun x hx => hwfr x (List.mem_cons_of_mem l2 hx)) (by omega) hlen2
      (by dsimp only; push_cast at hp ⊢; omega) rfl rfl rfl]
    dsimp only
    have hl2drop : l2.getD 0 ' ' :: l2.drop 1 = l2 := by
      cases hl2 : l2 with
      | nil => exact absurd hl2 hw2.1
      | cons a b => simp
    rw [joinNl_cons]
    simp only [TourState.mk.injEq, true_and, and_true]
    constructor
    · push_cast
      omega
    · conv_rhs => rw [← hl2drop]
      simp

end TourPanel

namespace TourPanel

open JsStr

/-- C1: (1) in every run of the coordinator from the initial state, at
most one narration line is being revealed at any time; (2) a dequeue
attempt with a non-positive pending-step count changes nothing, so no line
begins revealing unless the pending count is positive at dequeue time;
(3) FIFO pairing: if k step signals arrive first and then the k lines
L1..Lk arrive in order, the timers reveal L1 then L2 ... then Lk, each
only after the previous reveal completed, producing exactly the in-order
concatenation of the lines and ending with an idle, drained state. -/
theorem claim1 :
    (∀ (budget : Int) (evs : List TourEvent),
      (runEvents budget initTourState evs).reveals.length ≤ 1) ∧
    (∀ (budget : Int) (s : TourState), s.pendingSteps ≤ 0 →
      processTourQueue budget s = s) ∧
    (∀ (budget : Int) (ls : List (List Char)), (∀ l ∈ ls, wfLine l) →
      runEvents budget initTourState
        (List.replicate ls.length (.esignal .step)
          ++ ls.map (fun l => .edelta (l ++ ['\n']))
          ++ List.replicate (totalChars ls) .etimer)
        = { initTourState with content := joinNl ls }) := by
  refine ⟨?_, processTourQueue_nonpos, ?_⟩
  · intro budget evs
    rcases runEvents_inv budget evs with ⟨_, h⟩ | ⟨_, h⟩
    · omega
    · simp [h]
  · intro budget ls hwf
    rw [runEvents_append, runEvents_append]
    rw [steps_phase budget ls.length initTourState rfl]
    cases ls with
    | nil =>
      show runEvents budget _ (List.replicate (totalChars []) .etimer) = _
      rw [runEvents_replicate_timer]
      rw [show totalChars [] = 0 from rfl]
      show ({ initTourState with
        pendingSteps := initTourState.pendingSteps + ((0:Nat) : Int) } : TourState) = _
      simp [initTourState, joinNl]
    | cons l rest =>
      have hwl := hwf l (List.mem_cons_self l rest)
      rw [List.map_cons, runEvents_cons]
      rw [show ({ initTourState with
            pendingSteps := initTourState.pendingSteps + ((l :: rest).length : Int) } : TourState)
          = ⟨[], [], (l :: rest).length, false, [], [], false, false⟩ from by
        simp [initTourState]]
      rw [show stepEv budget
            (⟨[], [], ((l :: rest).length : Int), false, [], [], false, false⟩ : TourState)
            (.edelta (l ++ ['\n']))
          = ingestTourText budget (l ++ ['\n'])
              ⟨[], [], ((l :: rest).length : Int), false, [], [], false, false⟩ from rfl]
      rw [ingest_start budget _ l rfl hwl.1 hwl.2.1 hwl.2.2 rfl rfl (by simp)]
      dsimp only
      simp only [List.nil_append]
      rw [deltas_enqueue budget rest
        ⟨[], [], ((l :: rest).length : Int), true,
          [⟨l, 1, perCharMs budget l.length⟩], [l.getD 0 ' '], false, false⟩
        (fun x hx => hwf x (List.mem_cons_of_mem l hx)) rfl rfl]
      dsimp only
      simp only [List.nil_append]
      rw [runEvents_replicate_timer]
      have hlen : 1 ≤ l.length := by
        cases hl0 : l with
        | nil => exact absurd hl0 hwl.1
        | cons a b => simp
      rw [show totalChars (l :: rest) = ((l.length - 1 + 1) + totalChars rest) from by
        rw [totalChars_cons]; omega]
      rw [drain_mid budget rest l 1 (perCharMs budget l.length)
        ⟨[], rest, ((l :: rest).length : Int), true,
          [⟨l, 1, perCharMs budget l.length⟩], [l.getD 0 ' '], false, false⟩
        hwl.1 (fun x hx => hwf x (List.mem_cons_of_mem l hx)) le_rfl hlen
        (by simp) rfl rfl rfl]
      dsimp only
      rw [joinNl_cons]
      have hl2drop : l.getD 0 ' ' :: l.drop 1 = l := by
        cases hl0 : l with
        | nil => exact absurd hl0 hwl.1
        | cons a b => simp
      simp only [initTourState, TourState.mk.injEq, true_and, and_true]
      constructor
      · simp
      · conv_rhs => rw [← hl2drop]
        simp

end TourPanel

namespace TourPanel

/-- Witness for C1 with two concrete lines "ab" and "c", and for the
dequeue-positivity part at the initial state. -/
theorem claim1_witness :
    ((∀ l ∈ ([['a', 'b'], ['c']] : List (List Char)), wfLine l) ∧
      runEvents 3200 initTourState
        (List.replicate ([['a', 'b'], ['c']] : List (List Char)).length
            (TourEvent.esignal .step)
          ++ ([['a', 'b'], ['c']] : List (List Char)).map
              (fun l => TourEvent.edelta (l ++ ['\n']))
          ++ List.replicate (totalChars [['a', 'b'], ['c']]) TourEvent.etimer)
        = { initTourState with content := joinNl [['a', 'b'], ['c']] }) ∧
    (initTourState.pendingSteps ≤ 0 ∧
      processTourQueue 3200 initTourState = initTourState) :=
  ⟨⟨by decide, claim1.2.2 3200 [['a', 'b'], ['c']] (by decide)⟩,
   ⟨by decide, claim1.2.1 3200 initTourState (by decide)⟩⟩

end TourPanel

namespace StreamReader

open TourPanel

/-- C6: feeding the reader the two chunks of the spec's framing test
(the event frame and the JSON string both split across the chunk
boundary) yields exactly the single line "hello" in the backlog and the
stream-done flag, with empty carry buffers and no error: no duplicated,
truncated, or lost output. -/
theorem claim6 :
    runStream 3200
      ["data: \x7b\"delta\":\"hel".data,
       "lo\\n\"\x7d\n\ndata: \x7b\"done\":true\x7d\n\n".data]
    = { initStreamState with
        doneStreaming := true
        tour := { initTourState with
          lines := ["hello".data]
          responseDone := true } } := by decide

/-- C8: an event carrying an error field only records the error message
and leaves everything else (tour state, done flag, buffers) unchanged,
for every prior state; and in a full stream where the error event sits
between two delta events, the loop keeps running and both lines are
accumulated in order with the error surfaced alongside. -/
theorem claim8 :
    (∀ (budget : Int) (st : StreamState),
      processEventPart budget st ("data: \x7b\"error\":\"boom\"\x7d".data)
        = { st with errorMsg := some "boom" }) ∧
    runStream 3200
      [("data: \x7b\"delta\":\"a\\n\"\x7d\n\n"
        ++ "data: \x7b\"error\":\"boom\"\x7d\n\n"
        ++ "data: \x7b\"delta\":\"b\\n\"\x7d\n\n"
        ++ "data: \x7b\"done\":true\x7d\n\n").data]
      = { initStreamState with
          doneStreaming := true
          errorMsg := some "boom"
          tour := { initTourState with
            lines := [['a'], ['b']]
            responseDone := true } } :=
  ⟨fun _ _ => rfl, by decide⟩

/-- C3 counterexample: a stream whose delta "hello" has no trailing
newline followed by done: true ends with an empty line backlog and the
text "hello" still sitting in the accumulation buffer: the buffered
fragment is not flushed as a final line, contradicting the claim. -/
theorem claim3_counterexample :
    (runStream 3200
      ["data: \x7b\"delta\":\"hello\"\x7d\n\ndata: \x7b\"done\":true\x7d\n\n".data]).tour.lines
        = [] ∧
    (runStream 3200
      ["data: \x7b\"delta\":\"hello\"\x7d\n\ndata: \x7b\"done\":true\x7d\n\n".data]).tour.textBuffer
        = "hello".data := by decide

/-- C3 amended: the done path (the finally block) only marks the
response done and re-attempts a dequeue: the line-accumulation buffer is
left untouched (the trailing fragment is never flushed into the backlog,
hence lost), no line is ever added at end of stream (the backlog can only
shrink by dequeueing), and the stream flags are unchanged. -/
theorem claim3_amended (budget : Int) (st : StreamState) :
    (streamFinally budget st).tour.textBuffer = st.tour.textBuffer ∧
    (streamFinally budget st).tour.lines.Sublist st.tour.lines ∧
    (streamFinally budget st).tour.responseDone = true ∧
    (streamFinally budget st).doneStreaming = st.doneStreaming ∧
    (streamFinally budget st).errorMsg = st.errorMsg := by
  refine ⟨?_, ?_, ?_, rfl, rfl⟩
  · show (processTourQueue budget { st.tour with responseDone := true }).textBuffer = _
    rw [processTourQueue_textBuffer]
  · show (processTourQueue budget { st.tour with responseDone := true }).lines.Sublist _
    exact processTourQueue_lines_sublist budget _
  · show (processTourQueue budget { st.tour with responseDone := true }).responseDone = true
    rw [processTourQueue_responseDone]

end StreamReader

namespace StreamReader

/-- Witness for the amended C3 at the fresh stream state. -/
theorem claim3_amended_witness :
    (streamFinally 3200 initStreamState).tour.textBuffer
        = initStreamState.tour.textBuffer ∧
    (streamFinally 3200 initStreamState).tour.lines.Sublist
        initStreamState.tour.lines ∧
    (streamFinally 3200 initStreamState).tour.responseDone = true ∧
    (streamFinally 3200 initStreamState).doneStreaming
        = initStreamState.doneStreaming ∧
    (streamFinally 3200 initStreamState).errorMsg = initStreamState.errorMsg :=
  claim3_amended 3200 initStreamState

end StreamReader

namespace GraphTour

/-- Witness for C10 at a concrete object value and the worked example. -/
theorem claim10_witness :
    toNodeId (.vobj .pnull (.pstr "x") .pobj .pnull .pnull)
        = specFieldExtract [.pnull, .pstr "x", .pobj, .pnull, .pnull] ∧
    (∀ id ∈ extractNodeIds exGraphWorked, id ≠ "") :=
  ⟨claim10.1 .pnull (.pstr "x") .pobj .pnull .pnull, (claim10.2 exGraphWorked).1⟩

end GraphTour
